import Mathlib

/-!
Shallow embedding of the per-key min/mean/max aggregator (src/main.rs).

Buffers, lines, keys and the rendered report are modelled as lists of byte
values (`List Nat`).  The hash table `StationMap` is modelled as an
association list kept strictly sorted by key under byte-wise lexicographic
order; this is an order-canonical representation of the unordered hash map
of the source, so that equality of tables coincides with equality of the
underlying finite maps.  Machine integers (`i32`, `i64`, `usize`) are
modelled as `Int`/`Nat`; the readings handled by the program are scaled
one-decimal fixed-point values, far below any overflow boundary.
-/

/-- Keys (station names) are raw byte sequences, as in the source, which
skips UTF-8 validation. -/
abbrev Key := List Nat

/-- The per-key accumulator of src/main.rs (struct StationStats). -/
structure StationStats where
  min : Int
  max : Int
  total : Int
  count : Nat
deriving DecidableEq, Repr

/-- Byte-wise lexicographic strict order on keys; this is the order of
Rust's `Ord for String`/byte slices used by `names.sort()`. -/
def keyLt : List Nat → List Nat → Bool
  | [], [] => false
  | [], _ :: _ => true
  | _ :: _, [] => false
  | a :: as, b :: bs => if a < b then true else if a = b then keyLt as bs else false

/-- Loop body of `parse_int` (src/main.rs lines 128-143): running result and
the sign toggle, stopping at the first byte that is not a digit, '-' or '.'. -/
def parse_int_core : List Nat → Int → Int → Int
  | [], result, toggle => result * toggle
  | byte :: rest, result, toggle =>
    if byte = 45 then parse_int_core rest result (-1)
    else if byte = 46 then parse_int_core rest result toggle
    else if 48 ≤ byte ∧ byte ≤ 57 then
      parse_int_core rest (result * 10 + ((byte - 48 : Nat) : Int)) toggle
    else result * toggle

/-- The fast integer parser `parse_int` of src/main.rs: "12.3" parses as 123.
The source accumulates in `i32`; `parse_int_core` gives the value-level
(non-wrapping) semantics, which agrees with the program exactly while the
accumulator stays below 2^31 — the case for every one-decimal reading the
data model describes.  The wrapping-faithful variant is `parse_int_i32`. -/
def parse_int (bytes : List Nat) : Int := parse_int_core bytes 0 1

/-- Two's-complement wrap into the i32 range [-2147483648, 2147483648),
i.e. reduction mod 2^32 re-centred on [-2^31, 2^31): the behavior of Rust
i32 arithmetic in release builds (debug builds panic instead). -/
def wrap32 (x : Int) : Int := (x + 2147483648) % 4294967296 - 2147483648

/-- Loop body of `parse_int` with the source's `i32` accumulator modelled
faithfully: every arithmetic step wraps at 32 bits. -/
def parse_int_core_i32 : List Nat → Int → Int → Int
  | [], result, toggle => wrap32 (result * toggle)
  | byte :: rest, result, toggle =>
    if byte = 45 then parse_int_core_i32 rest result (-1)
    else if byte = 46 then parse_int_core_i32 rest result toggle
    else if 48 ≤ byte ∧ byte ≤ 57 then
      parse_int_core_i32 rest (wrap32 (result * 10 + ((byte - 48 : Nat) : Int))) toggle
    else wrap32 (result * toggle)

/-- The parser with i32-wrapping (release-build) arithmetic. -/
def parse_int_i32 (bytes : List Nat) : Int := parse_int_core_i32 bytes 0 1

/-- The complete (newline-terminated) lines of a buffer, exactly as scanned
by the loop of `do_aggregate` (src/main.rs lines 20-23): bytes after the
last line terminator are never processed. -/
def splitLines : List Nat → List (List Nat)
  | [] => []
  | byte :: rest =>
    if byte = 10 then [] :: splitLines rest
    else
      match splitLines rest with
      | [] => []
      | line :: lines => (byte :: line) :: lines

/-- Split a record at its first ';' byte (src/main.rs lines 26-29); `none`
models the `expect("Bad line structure")` panic when no separator exists. -/
def splitSemi : List Nat → Option (List Nat × List Nat)
  | [] => none
  | byte :: rest =>
    if byte = 59 then some ([], rest)
    else
      match splitSemi rest with
      | none => none
      | some (station, reading) => some (byte :: station, reading)

/-- First-sight insert of a key (src/main.rs lines 50-60). -/
def initStats (reading : Int) : StationStats :=
  { min := reading, max := reading, total := reading, count := 1 }

/-- Subsequent-sight update of a key (src/main.rs lines 40-49), including
the `if reading < min ... else if reading > max` branch structure. -/
def updateStats (s : StationStats) (reading : Int) : StationStats :=
  if reading < s.min then
    { s with min := reading, total := s.total + reading, count := s.count + 1 }
  else if reading > s.max then
    { s with max := reading, total := s.total + reading, count := s.count + 1 }
  else
    { s with total := s.total + reading, count := s.count + 1 }

/-- The merge combine rule of the reducer (src/main.rs lines 111-116). -/
def combineStats (a b : StationStats) : StationStats :=
  { min := min a.min b.min, max := max a.max b.max,
    total := a.total + b.total, count := a.count + b.count }

/-- The station table: the source's hash map, represented canonically as an
association list strictly sorted by `keyLt`. -/
abbrev StationMap := List (Key × StationStats)

/-- Map lookup in the association-list representation. -/
def lookupKey : StationMap → Key → Option StationStats
  | [], _ => none
  | (k, s) :: rest, key => if key = k then some s else lookupKey rest key

/-- Order-preserving find-or-insert: the `raw_entry`/`entry` operations of
the source hash map, with `f none` the vacant case and `f (some s)` the
occupied case. -/
def insertWith (key : Key) (f : Option StationStats → StationStats) : StationMap → StationMap
  | [] => [(key, f none)]
  | (k, s) :: rest =>
    if keyLt key k then (key, f none) :: (k, s) :: rest
    else if key = k then (k, f (some s)) :: rest
    else (k, s) :: insertWith key f rest

/-- One record's table update in `do_aggregate` (src/main.rs lines 39-61). -/
def aggInsert (station : Key) (reading : Int) : StationMap → StationMap :=
  insertWith station (fun o => match o with
    | none => initStats reading
    | some s => updateStats s reading)

/-- One entry's merge into the accumulating table (src/main.rs lines
110-117): `and_modify(combine).or_insert(incoming)`. -/
def mergeInsert (station : Key) (incoming : StationStats) : StationMap → StationMap :=
  insertWith station (fun o => match o with
    | none => incoming
    | some s => combineStats s incoming)

/-- The aggregation loop over the complete lines of a chunk. -/
def aggLines : StationMap → List (List Nat) → Option StationMap
  | m, [] => some m
  | m, line :: rest =>
    match splitSemi line with
    | none => none
    | some (station, readingBytes) =>
      aggLines (aggInsert station (parse_int readingBytes) m) rest

/-- The partial aggregator `do_aggregate` (src/main.rs lines 16-66);
`none` models the fatal "Bad line structure" abort. -/
def do_aggregate (buf : List Nat) : Option StationMap :=
  aggLines [] (splitLines buf)

/-- Merge one partial table into the accumulated table (src/main.rs lines
109-118). -/
def mergeTables (stats other : StationMap) : StationMap :=
  other.foldl (fun acc e => mergeInsert e.1 e.2 acc) stats

/-- The reducer's merge of all received partial tables (src/main.rs lines
106-118): start from the first table, fold the rest in arrival order. -/
def mergeAll : List StationMap → StationMap
  | [] => []
  | t :: ts => ts.foldl mergeTables t

/-- Run the partial aggregator on every chunk; `none` when any chunk
aborts. -/
def aggAll : List (List Nat) → Option (List StationMap)
  | [] => some []
  | c :: cs =>
    match do_aggregate c, aggAll cs with
    | some t, some ts => some (t :: ts)
    | _, _ => none

/-- The scaled reading a given line contributes to a given key, if any. -/
def lineReading (key : Key) (line : List Nat) : Option Int :=
  match splitSemi line with
  | none => none
  | some (station, readingBytes) =>
    if station = key then some (parse_int readingBytes) else none

/-- All scaled readings observed for a key over a list of records, in
order. -/
def readingsOf (lines : List (List Nat)) (key : Key) : List Int :=
  lines.filterMap (lineReading key)

/-- The accumulator a single aggregator builds from a key's observed
readings, in order. -/
def statsOfReadings : List Int → Option StationStats
  | [] => none
  | r :: rs => some (rs.foldl updateStats (initStats r))

/-- Pointwise merge of optional per-key statistics: the merge rule extended
to keys possibly missing from one side. -/
def combineOpt : Option StationStats → Option StationStats → Option StationStats
  | none, o => o
  | some s, none => some s
  | some s, some t => some (combineStats s t)

/-- One observation step on an optional accumulator: first sight inserts,
subsequent sight updates. -/
def stepStats (o : Option StationStats) (r : Int) : Option StationStats :=
  some (match o with
    | none => initStats r
    | some s => updateStats s r)

/-- Fold a list of observations onto an optional accumulator. -/
def extendStats (o : Option StationStats) (rs : List Int) : Option StationStats :=
  rs.foldl stepStats o

/-- Index of the first line-terminator byte of a list, if any. -/
def firstNl : List Nat → Option Nat
  | [] => none
  | byte :: rest => if byte = 10 then some 0 else (firstNl rest).map (fun i => i + 1)

/-- The chunk boundary derived from a candidate split offset (src/main.rs
lines 79-80): advance to the next newline and split immediately after it;
`none` models the fatal "Must find a newline" abort. -/
def nlBoundary (buf : List Nat) (off : Nat) : Option Nat :=
  (firstNl (buf.drop off)).map (fun i => off + i + 1)

/-- The boundaries produced for candidate offsets `1*chunkSize` through
`t*chunkSize`, in order (src/main.rs lines 77-81). -/
def midOffsets (buf : List Nat) (chunkSize : Nat) : Nat → Option (List Nat)
  | 0 => some []
  | t + 1 =>
    match midOffsets buf chunkSize t, nlBoundary buf ((t + 1) * chunkSize) with
    | some l, some b => some (l ++ [b])
    | _, _ => none

/-- The chunk planner (src/main.rs lines 72-83): offset 0, the N-1 advanced
split points, and the buffer length as final offset. -/
def chunkOffsets (buf : List Nat) (numThreads : Nat) : Option (List Nat) :=
  (midOffsets buf (buf.length / numThreads) (numThreads - 1)).map
    (fun mids => 0 :: mids ++ [buf.length])

/-- The byte ranges named by consecutive offsets (the sliding window of
src/main.rs lines 89-101). -/
def chunksFromOffsets (buf : List Nat) (offs : List Nat) : List (List Nat) :=
  (offs.zip offs.tail).map (fun w => (buf.drop w.1).take (w.2 - w.1))

/-- Decimal digit bytes, most significant first, with an explicit recursion
bound (always sufficient, see natDigits_eq) so that terms reduce inside the
kernel. -/
def natDigitsAux : Nat → Nat → List Nat
  | 0, _ => []
  | fuel + 1, n =>
    if n < 10 then [48 + n]
    else natDigitsAux fuel (n / 10) ++ [48 + n % 10]

/-- Decimal digit bytes of a natural number, most significant first. -/
def natDigits (n : Nat) : List Nat := natDigitsAux (n + 1) n

/-- The rendered form of a scaled integer at one-decimal precision: the
digits of |k|/10, a '.', and the single digit |k| mod 10, with a leading
'-' for negative values.  This is what Rust's `{:.1}` prints for the f64
quotient k/10.0 at the magnitudes an `i32` scaled reading can take. -/
def renderScaled (scaled : Int) : List Nat :=
  (if scaled < 0 then [45] else []) ++
    natDigits (scaled.natAbs / 10) ++ [46, 48 + scaled.natAbs % 10]

/-- Ceiling division of the total by the count: the exact value of
`(total as f64 / count as f64).ceil()` (src/main.rs line 163).  The spec's
"equivalent exact rational ceiling": the f64 division is exact at the
magnitudes reachable from scaled one-decimal readings (far below 2^53). -/
def ceilDiv (total : Int) (count : Nat) : Int := -(Int.fdiv (-total) count)

/-- The scaled mean rendered for a key (src/main.rs lines 163-164). -/
def meanScaled (s : StationStats) : Int := ceilDiv s.total s.count

/-- One formatted `key=min/mean/max` entry (src/main.rs line 166). -/
def entryBytes (key : Key) (s : StationStats) : List Nat :=
  key ++ [61] ++ renderScaled s.min ++ [47] ++ renderScaled (meanScaled s) ++
    [47] ++ renderScaled s.max

/-- The formatted entries joined by ", " (the enumerate-and-separate loop
of src/main.rs lines 151-167). -/
def entriesBytes : StationMap → List Nat
  | [] => []
  | [e] => entryBytes e.1 e.2
  | e :: e2 :: rest => entryBytes e.1 e.2 ++ [44, 32] ++ entriesBytes (e2 :: rest)

/-- Sorted insertion of one entry, by key. -/
def insSortEntry (e : Key × StationStats) : StationMap → StationMap
  | [] => [e]
  | e2 :: rest => if keyLt e.1 e2.1 then e :: e2 :: rest else e2 :: insSortEntry e rest

/-- The `names.sort()` step of src/main.rs line 148, on entries. -/
def sortEntries (m : StationMap) : StationMap := m.foldr insSortEntry []

/-- The report formatter `format_output` (src/main.rs lines 146-171):
'{', the sorted entries joined by ", ", '}', newline. -/
def format_output (m : StationMap) : List Nat :=
  123 :: entriesBytes (sortEntries m) ++ [125, 10]

/-- A chunk boundary is line-aligned: the chunk is empty or ends right
after a line terminator. -/
def chunkAligned (chunk : List Nat) : Prop :=
  chunk = [] ∨ chunk.getLast? = some 10

/-- The table's keys are strictly ascending (hence pairwise distinct). -/
def tableSorted (m : StationMap) : Prop :=
  (m.map Prod.fst).Pairwise (fun a b => keyLt a b = true)

/-- No key occurs twice in the table. -/
def nodupKeys (m : StationMap) : Prop := (m.map Prod.fst).Nodup

instance decChunkAligned (chunk : List Nat) : Decidable (chunkAligned chunk) := by
  unfold chunkAligned
  infer_instance

instance decTableSorted (m : StationMap) : Decidable (tableSorted m) := by
  unfold tableSorted
  infer_instance

instance decNodupKeys (m : StationMap) : Decidable (nodupKeys m) := by
  unfold nodupKeys
  infer_instance

/-- Value of a big-endian digit list. -/
def digitsToNat (ds : List Nat) : Nat := ds.foldl (fun acc d => acc * 10 + d) 0

/-- A well-formed reading field: optional leading '-', digit bytes, and
optionally a '.' followed by exactly one fractional digit byte. -/
def readingBytes (neg : Bool) (ds : List Nat) (frac : Option Nat) : List Nat :=
  (if neg then [45] else []) ++ ds.map (fun d => 48 + d) ++
    (match frac with
     | none => []
     | some d => [46, 48 + d])

/-- The scaled integer such a field denotes: every digit before and after
the decimal point contributes, the point itself is dropped, a leading '-'
negates ("12.3" denotes 123, "-0.4" denotes -4, "5" denotes 5). -/
def readingValue (neg : Bool) (ds : List Nat) (frac : Option Nat) : Int :=
  (if neg then -1 else 1) *
    (match frac with
     | none => (digitsToNat ds : Int)
     | some d => (digitsToNat ds : Int) * 10 + (d : Int))

/-- The magnitude of the scaled value a well-formed field denotes. -/
def readingMag (ds : List Nat) (frac : Option Nat) : Nat :=
  match frac with
  | none => digitsToNat ds
  | some d => digitsToNat ds * 10 + d

/-- The claimed accumulator invariants relative to the observed readings:
count counts them, total sums them, min/max bound them. -/
def statsInv (s : StationStats) (readings : List Int) : Prop :=
  s.count = readings.length ∧ s.total = readings.sum ∧
    ∀ r ∈ readings, s.min ≤ r ∧ r ≤ s.max

/-- Strengthened invariant: min and max are moreover attained. -/
def statsInvStrong (s : StationStats) (readings : List Int) : Prop :=
  statsInv s readings ∧ s.min ∈ readings ∧ s.max ∈ readings

/-- Internal well-formedness of an optional accumulator: min never exceeds
max. -/
def optWF (o : Option StationStats) : Prop :=
  ∀ s, o = some s → s.min ≤ s.max

theorem keyLt_irrefl (a : Key) : keyLt a a = false := by
  induction a with
  | nil => rfl
  | cons x xs ih => simp [keyLt, ih]

theorem keyLt_cons_iff (a b : Nat) (as bs : Key) :
    keyLt (a :: as) (b :: bs) = true ↔ a < b ∨ (a = b ∧ keyLt as bs = true) := by
  simp only [keyLt]
  split_ifs with h1 h2
  · simp [h1]
  · simp [h1, h2]
  · simp [h1, h2]

theorem keyLt_trans : ∀ a b c : Key, keyLt a b = true → keyLt b c = true → keyLt a c = true := by
  intro a
  induction a with
  | nil =>
    intro b c hab hbc
    cases b with
    | nil => simp [keyLt] at hab
    | cons y ys =>
      cases c with
      | nil => simp [keyLt] at hbc
      | cons z zs => simp [keyLt]
  | cons x xs ih =>
    intro b c hab hbc
    cases b with
    | nil => simp [keyLt] at hab
    | cons y ys =>
      cases c with
      | nil => simp [keyLt] at hbc
      | cons z zs =>
        rw [keyLt_cons_iff] at hab hbc ⊢
        rcases hab with h | ⟨he, hr⟩ <;> rcases hbc with h2 | ⟨he2, hr2⟩
        · exact Or.inl (by omega)
        · exact Or.inl (by omega)
        · exact Or.inl (by omega)
        · exact Or.inr ⟨by omega, ih ys zs hr hr2⟩

theorem keyLt_asymm (a b : Key) (h : keyLt a b = true) : keyLt b a = false := by
  by_contra hc
  have : keyLt b a = true := by
    cases hba : keyLt b a
    · exact absurd hba hc
    · rfl
  have := keyLt_trans a b a h this
  rw [keyLt_irrefl] at this
  exact Bool.false_ne_true this

theorem keyLt_conn : ∀ a b : Key, keyLt a b = false → keyLt b a = false → a = b := by
  intro a
  induction a with
  | nil =>
    intro b hab _hba
    cases b with
    | nil => rfl
    | cons y ys => simp [keyLt] at hab
  | cons x xs ih =>
    intro b hab hba
    cases b with
    | nil => simp [keyLt] at hba
    | cons y ys =>
      have hab' : ¬ (x < y ∨ (x = y ∧ keyLt xs ys = true)) := by
        rw [← keyLt_cons_iff]
        simp [hab]
      have hba' : ¬ (y < x ∨ (y = x ∧ keyLt ys xs = true)) := by
        rw [← keyLt_cons_iff]
        simp [hba]
      push_neg at hab' hba'
      have hxy : x = y := by omega
      subst hxy
      have h1 : keyLt xs ys = false := by
        have := hab'.2 rfl
        cases h : keyLt xs ys
        · rfl
        · exact absurd h this
      have h2 : keyLt ys xs = false := by
        have := hba'.2 rfl
        cases h : keyLt ys xs
        · rfl
        · exact absurd h this
      rw [ih ys h1 h2]

theorem keyLt_total (a b : Key) (hne : a ≠ b) (h : keyLt a b = false) : keyLt b a = true := by
  cases hba : keyLt b a
  · exact absurd (keyLt_conn a b h hba) hne
  · rfl

theorem lookup_eq_none (m : StationMap) (key : Key) (h : ∀ e ∈ m, key ≠ e.1) :
    lookupKey m key = none := by
  induction m with
  | nil => rfl
  | cons e rest ih =>
    obtain ⟨k, s⟩ := e
    have hne : key ≠ k := h (k, s) (List.mem_cons_self _ _)
    simp only [lookupKey, if_neg hne]
    exact ih (fun e he => h e (List.mem_cons_of_mem _ he))

theorem mem_keys_of_lookup (m : StationMap) (key : Key) (s : StationStats)
    (h : lookupKey m key = some s) : key ∈ m.map Prod.fst := by
  induction m with
  | nil => simp [lookupKey] at h
  | cons e rest ih =>
    obtain ⟨k, s2⟩ := e
    simp only [lookupKey] at h
    by_cases hk : key = k
    · simp [hk]
    · rw [if_neg hk] at h
      simp [ih h]

theorem lookup_none_of_lt_head (k key : Key) (s : StationStats) (rest : StationMap)
    (hsorted : tableSorted ((k, s) :: rest)) (hlt : keyLt key k = true) :
    lookupKey ((k, s) :: rest) key = none := by
  apply lookup_eq_none
  intro e he hk
  rcases List.mem_cons.mp he with he | he
  · subst he
    simp only at hk
    subst hk
    rw [keyLt_irrefl] at hlt
    exact Bool.false_ne_true hlt
  · have hrel : keyLt k e.1 = true := by
      have := (List.pairwise_cons.mp hsorted).1
      exact this e.1 (List.mem_map_of_mem Prod.fst he)
    subst hk
    have := keyLt_trans e.1 k e.1 hlt hrel
    rw [keyLt_irrefl] at this
    exact Bool.false_ne_true this

theorem keys_insertWith_sub (key : Key) (f : Option StationStats → StationStats) :
    ∀ (m : StationMap) (k2 : Key), k2 ∈ (insertWith key f m).map Prod.fst →
      k2 = key ∨ k2 ∈ m.map Prod.fst := by
  intro m
  induction m with
  | nil =>
    intro k2 h
    simp only [insertWith, List.map_cons, List.map_nil] at h
    simp at h
    exact Or.inl h
  | cons e rest ih =>
    intro k2 h
    obtain ⟨k, s⟩ := e
    simp only [insertWith] at h
    split_ifs at h with h1 h2
    · simp only [List.map_cons, List.mem_cons] at h ⊢
      tauto
    · simp only [List.map_cons, List.mem_cons] at h ⊢
      tauto
    · simp only [List.map_cons, List.mem_cons] at h ⊢
      rcases h with h | h
      · tauto
      · rcases ih k2 h with h | h <;> tauto

theorem sorted_insertWith (key : Key) (f : Option StationStats → StationStats) :
    ∀ m : StationMap, tableSorted m → tableSorted (insertWith key f m) := by
  intro m
  induction m with
  | nil =>
    intro _
    simp [insertWith, tableSorted]
  | cons e rest ih =>
    intro hsorted
    obtain ⟨k, s⟩ := e
    have hhead := (List.pairwise_cons.mp hsorted).1
    have htail := (List.pairwise_cons.mp hsorted).2
    simp only [insertWith]
    split_ifs with h1 h2
    · refine List.pairwise_cons.mpr ⟨?_, hsorted⟩
      intro k2 hk2
      simp only [List.map_cons, List.mem_cons] at hk2
      rcases hk2 with hk2 | hk2
      · subst hk2; exact h1
      · exact keyLt_trans key k k2 h1 (hhead k2 hk2)
    · subst h2
      exact hsorted
    · refine List.pairwise_cons.mpr ⟨?_, ih htail⟩
      intro k2 hk2
      rcases keys_insertWith_sub key f rest k2 hk2 with hk2 | hk2
      · rw [hk2]
        exact keyLt_total key k h2 (Bool.eq_false_iff.mpr h1)
      · exact hhead k2 hk2

theorem lookup_insertWith_ne (key key2 : Key) (f : Option StationStats → StationStats)
    (hne : key2 ≠ key) :
    ∀ m : StationMap, lookupKey (insertWith key f m) key2 = lookupKey m key2 := by
  intro m
  induction m with
  | nil => simp [insertWith, lookupKey, if_neg hne]
  | cons e rest ih =>
    obtain ⟨k, s⟩ := e
    simp only [insertWith]
    split_ifs with h1 h2
    · simp only [lookupKey, if_neg hne]
    · subst h2
      simp only [lookupKey, if_neg hne]
    · simp only [lookupKey]
      by_cases hk : key2 = k
      · simp [hk]
      · rw [if_neg hk, if_neg hk]
        exact ih

theorem lookup_insertWith_self (key : Key) (f : Option StationStats → StationStats) :
    ∀ m : StationMap, tableSorted m →
      lookupKey (insertWith key f m) key = some (f (lookupKey m key)) := by
  intro m
  induction m with
  | nil => simp [insertWith, lookupKey]
  | cons e rest ih =>
    intro hsorted
    obtain ⟨k, s⟩ := e
    have htail := (List.pairwise_cons.mp hsorted).2
    simp only [insertWith]
    split_ifs with h1 h2
    · rw [lookup_none_of_lt_head k key s rest hsorted h1]
      simp [lookupKey]
    · subst h2
      simp [lookupKey]
    · have hne : key ≠ k := fun h => h2 h
      simp only [lookupKey, if_neg hne]
      exact ih htail

theorem extendStats_nil (o : Option StationStats) : extendStats o [] = o := rfl

theorem extendStats_cons (o : Option StationStats) (r : Int) (rs : List Int) :
    extendStats o (r :: rs) = extendStats (stepStats o r) rs := rfl

theorem extendStats_append (o : Option StationStats) (xs ys : List Int) :
    extendStats o (xs ++ ys) = extendStats (extendStats o xs) ys :=
  List.foldl_append _ _ _ _

theorem extendStats_some (s : StationStats) (rs : List Int) :
    extendStats (some s) rs = some (rs.foldl updateStats s) := by
  induction rs generalizing s with
  | nil => rfl
  | cons r rs ih => simpa [extendStats_cons, stepStats] using ih (updateStats s r)

theorem statsOfReadings_eq_extend (rs : List Int) :
    statsOfReadings rs = extendStats none rs := by
  cases rs with
  | nil => rfl
  | cons r rs => simp [statsOfReadings, extendStats_cons, stepStats, extendStats_some]

theorem statsWF_update (s : StationStats) (r : Int) (h : s.min ≤ s.max) :
    (updateStats s r).min ≤ (updateStats s r).max := by
  obtain ⟨mn, mx, tot, cnt⟩ := s
  simp only [updateStats] at h ⊢
  split_ifs <;> simp_all <;> omega

theorem update_eq_combine (s : StationStats) (r : Int) (h : s.min ≤ s.max) :
    updateStats s r = combineStats s (initStats r) := by
  obtain ⟨mn, mx, tot, cnt⟩ := s
  simp only [updateStats, combineStats, initStats] at h ⊢
  split_ifs with h1 h2 <;>
    simp only [StationStats.mk.injEq, min_def, max_def] <;>
    split_ifs <;> simp_all <;> omega

theorem statsWF_combine (a b : StationStats) (ha : a.min ≤ a.max) :
    (combineStats a b).min ≤ (combineStats a b).max :=
  le_trans (le_trans (min_le_left _ _) ha) (le_max_left _ _)

theorem combineStats_comm (a b : StationStats) : combineStats a b = combineStats b a := by
  simp [combineStats, min_comm, max_comm, Int.add_comm, Nat.add_comm]

theorem combineStats_assoc (a b c : StationStats) :
    combineStats (combineStats a b) c = combineStats a (combineStats b c) := by
  simp [combineStats, min_assoc, max_assoc, Int.add_assoc, Nat.add_assoc]

theorem combineOpt_none_right (o : Option StationStats) : combineOpt o none = o := by
  cases o <;> rfl

theorem combineOpt_comm (a b : Option StationStats) : combineOpt a b = combineOpt b a := by
  cases a <;> cases b <;> simp [combineOpt, combineStats_comm]

theorem combineOpt_assoc (a b c : Option StationStats) :
    combineOpt (combineOpt a b) c = combineOpt a (combineOpt b c) := by
  cases a <;> cases b <;> cases c <;> simp [combineOpt, combineStats_assoc]

theorem optWF_statsOfReadings (rs : List Int) : optWF (statsOfReadings rs) := by
  cases rs with
  | nil => intro s h; simp [statsOfReadings] at h
  | cons r rs =>
    intro s h
    simp only [statsOfReadings, Option.some.injEq] at h
    subst h
    induction rs using List.reverseRecOn with
    | nil => exact le_refl _
    | append_singleton rs r2 ih =>
      rw [List.foldl_append]
      exact statsWF_update _ r2 ih

theorem optWF_combineOpt (a b : Option StationStats) (ha : optWF a) (hb : optWF b) :
    optWF (combineOpt a b) := by
  cases a with
  | none => simpa [combineOpt] using hb
  | some s =>
    cases b with
    | none => simpa [combineOpt] using ha
    | some t =>
      intro u hu
      simp only [combineOpt, Option.some.injEq] at hu
      subst hu
      exact statsWF_combine s t (ha s rfl)

theorem stepStats_eq_combineOpt (o : Option StationStats) (r : Int) (h : optWF o) :
    stepStats o r = combineOpt o (some (initStats r)) := by
  cases o with
  | none => rfl
  | some s => simp [stepStats, combineOpt, update_eq_combine s r (h s rfl)]

theorem extend_eq_combineOpt (rs : List Int) :
    ∀ o : Option StationStats, optWF o →
      extendStats o rs = combineOpt o (statsOfReadings rs) := by
  induction rs with
  | nil => intro o _; rw [extendStats_nil, statsOfReadings, combineOpt_none_right]
  | cons r rs ih =>
    intro o ho
    have hinit : optWF (some (initStats r)) := by
      intro s h
      simp only [Option.some.injEq] at h
      subst h
      exact le_refl _
    rw [extendStats_cons, stepStats_eq_combineOpt o r ho,
      ih _ (optWF_combineOpt o (some (initStats r)) ho hinit), combineOpt_assoc]
    congr 1
    have h2 : statsOfReadings (r :: rs) = extendStats (some (initStats r)) rs := by
      simp [statsOfReadings, extendStats_some]
    rw [h2, ih (some (initStats r)) hinit]

theorem statsOfReadings_append (xs ys : List Int) :
    statsOfReadings (xs ++ ys) = combineOpt (statsOfReadings xs) (statsOfReadings ys) := by
  rw [statsOfReadings_eq_extend, extendStats_append, ← statsOfReadings_eq_extend]
  exact extend_eq_combineOpt ys _ (optWF_statsOfReadings xs)

theorem aggLines_sorted_lookup :
    ∀ (lines : List (List Nat)) (m0 m : StationMap), tableSorted m0 →
      aggLines m0 lines = some m →
      tableSorted m ∧
        ∀ key, lookupKey m key = extendStats (lookupKey m0 key) (readingsOf lines key) := by
  intro lines
  induction lines with
  | nil =>
    intro m0 m hs h
    simp only [aggLines, Option.some.injEq] at h
    subst h
    exact ⟨hs, fun key => rfl⟩
  | cons line rest ih =>
    intro m0 m hs h
    simp only [aggLines] at h
    cases hsplit : splitSemi line with
    | none => rw [hsplit] at h; exact absurd h (by simp)
    | some p =>
      obtain ⟨st, rb⟩ := p
      rw [hsplit] at h
      have hs1 : tableSorted (aggInsert st (parse_int rb) m0) :=
        sorted_insertWith st _ m0 hs
      obtain ⟨hms, hlook⟩ := ih _ m hs1 h
      refine ⟨hms, fun key => ?_⟩
      rw [hlook key]
      have hline : lineReading key line =
          if st = key then some (parse_int rb) else none := by
        simp [lineReading, hsplit]
      by_cases hk : st = key
      · subst hk
        have hrd : readingsOf (line :: rest) st =
            parse_int rb :: readingsOf rest st := by
          simp [readingsOf, List.filterMap_cons, hline]
        rw [hrd, extendStats_cons]
        have hup : lookupKey (aggInsert st (parse_int rb) m0) st =
            stepStats (lookupKey m0 st) (parse_int rb) :=
          lookup_insertWith_self st _ m0 hs
        rw [hup]
      · have hrd : readingsOf (line :: rest) key = readingsOf rest key := by
          simp [readingsOf, List.filterMap_cons, hline, hk]
        rw [hrd]
        have hne : key ≠ st := fun hkey => hk hkey.symm
        have hlo : lookupKey (aggInsert st (parse_int rb) m0) key = lookupKey m0 key :=
          lookup_insertWith_ne st key _ hne m0
        rw [hlo]

theorem aggLines_fails (lines : List (List Nat)) (line : List Nat)
    (hmem : line ∈ lines) (hsplit : splitSemi line = none) :
    ∀ m0, aggLines m0 lines = none := by
  induction lines with
  | nil => exact absurd hmem (List.not_mem_nil line)
  | cons l rest ih =>
    intro m0
    rcases List.mem_cons.mp hmem with h | h
    · subst h
      simp [aggLines, hsplit]
    · simp only [aggLines]
      cases hs : splitSemi l with
      | none => rfl
      | some p => exact ih h _

theorem aggLines_succeeds (lines : List (List Nat))
    (h : ∀ line ∈ lines, (splitSemi line).isSome) :
    ∀ m0, (aggLines m0 lines).isSome := by
  induction lines with
  | nil => intro m0; simp [aggLines]
  | cons l rest ih =>
    intro m0
    have hl := h l (List.mem_cons_self _ _)
    cases hs : splitSemi l with
    | none => rw [hs] at hl; simp at hl
    | some p =>
      simp only [aggLines, hs]
      exact ih (fun line hm => h line (List.mem_cons_of_mem _ hm)) _

theorem do_aggregate_sorted_lookup (buf : List Nat) (m : StationMap)
    (h : do_aggregate buf = some m) :
    tableSorted m ∧
      ∀ key, lookupKey m key = statsOfReadings (readingsOf (splitLines buf) key) := by
  have hs : tableSorted ([] : StationMap) := List.Pairwise.nil
  obtain ⟨h1, h2⟩ := aggLines_sorted_lookup (splitLines buf) [] m hs h
  refine ⟨h1, fun key => ?_⟩
  rw [h2 key, statsOfReadings_eq_extend]
  rfl

theorem nodupKeys_of_sorted (m : StationMap) (h : tableSorted m) : nodupKeys m := by
  refine List.Pairwise.imp ?_ h
  intro a b hlt heq
  subst heq
  rw [keyLt_irrefl] at hlt
  exact Bool.false_ne_true hlt

theorem lookup_mergeInsert (k0 : Key) (s0 : StationStats) (A : StationMap)
    (hA : tableSorted A) :
    lookupKey (mergeInsert k0 s0 A) k0 = combineOpt (lookupKey A k0) (some s0) := by
  have h := lookup_insertWith_self k0 (fun o => match o with
    | none => s0
    | some s => combineStats s s0) A hA
  have h2 : lookupKey (mergeInsert k0 s0 A) k0 =
      some (match lookupKey A k0 with
        | none => s0
        | some s => combineStats s s0) := h
  rw [h2]
  cases lookupKey A k0 <;> rfl

theorem lookup_mergeTables :
    ∀ (B A : StationMap) (key : Key), tableSorted A → nodupKeys B →
      lookupKey (mergeTables A B) key = combineOpt (lookupKey A key) (lookupKey B key) := by
  intro B
  induction B with
  | nil =>
    intro A key hA _
    show lookupKey A key = combineOpt (lookupKey A key) none
    rw [combineOpt_none_right]
  | cons e B2 ih =>
    intro A key hA hB
    obtain ⟨k0, s0⟩ := e
    have hstep : mergeTables A ((k0, s0) :: B2) = mergeTables (mergeInsert k0 s0 A) B2 := rfl
    rw [hstep]
    have hA1 : tableSorted (mergeInsert k0 s0 A) := sorted_insertWith k0 _ A hA
    have hB2 : nodupKeys B2 := (List.pairwise_cons.mp hB).2
    rw [ih (mergeInsert k0 s0 A) key hA1 hB2]
    by_cases hk : key = k0
    · subst hk
      have hB2none : lookupKey B2 key = none := by
        apply lookup_eq_none
        intro e2 he2 heq
        have := (List.pairwise_cons.mp hB).1 e2.1 (List.mem_map_of_mem Prod.fst he2)
        exact this heq
      rw [hB2none, combineOpt_none_right, lookup_mergeInsert key s0 A hA]
      simp [lookupKey]
    · have hlo : lookupKey (mergeInsert k0 s0 A) key = lookupKey A key :=
        lookup_insertWith_ne k0 key _ hk A
      rw [hlo]
      simp only [lookupKey, if_neg hk]

theorem sorted_mergeTables :
    ∀ (B A : StationMap), tableSorted A → tableSorted (mergeTables A B) := by
  intro B
  induction B with
  | nil => intro A hA; exact hA
  | cons e B2 ih =>
    intro A hA
    exact ih (mergeInsert e.1 e.2 A) (sorted_insertWith e.1 _ A hA)

theorem lookup_foldl_mergeTables :
    ∀ (ts : List StationMap) (A : StationMap) (key : Key), tableSorted A →
      (∀ t ∈ ts, nodupKeys t) →
      tableSorted (ts.foldl mergeTables A) ∧
        lookupKey (ts.foldl mergeTables A) key =
          ts.foldl (fun o t => combineOpt o (lookupKey t key)) (lookupKey A key) := by
  intro ts
  induction ts with
  | nil => intro A key hA _; exact ⟨hA, rfl⟩
  | cons t ts ih =>
    intro A key hA hnd
    have hA1 : tableSorted (mergeTables A t) := sorted_mergeTables t A hA
    have hstep := ih (mergeTables A t) key hA1
      (fun u hu => hnd u (List.mem_cons_of_mem _ hu))
    refine ⟨hstep.1, ?_⟩
    rw [List.foldl_cons, hstep.2, List.foldl_cons,
      lookup_mergeTables t A key hA (hnd t (List.mem_cons_self _ _))]

theorem lookup_mergeAll (l : List StationMap) (key : Key)
    (h : ∀ t ∈ l, tableSorted t) :
    tableSorted (mergeAll l) ∧
      lookupKey (mergeAll l) key =
        l.foldl (fun o t => combineOpt o (lookupKey t key)) none := by
  cases l with
  | nil => exact ⟨List.Pairwise.nil, rfl⟩
  | cons t ts =>
    have ht : tableSorted t := h t (List.mem_cons_self _ _)
    have := lookup_foldl_mergeTables ts t key ht
      (fun u hu => nodupKeys_of_sorted u (h u (List.mem_cons_of_mem _ hu)))
    refine ⟨this.1, ?_⟩
    rw [List.foldl_cons]
    exact this.2

theorem foldl_combineOpt_perm (g : StationMap → Option StationStats) :
    ∀ {l1 l2 : List StationMap}, l1.Perm l2 → ∀ o : Option StationStats,
      l1.foldl (fun acc t => combineOpt acc (g t)) o =
        l2.foldl (fun acc t => combineOpt acc (g t)) o := by
  intro l1 l2 h
  induction h with
  | nil => intro o; rfl
  | cons x _ ih =>
    intro o
    simp only [List.foldl_cons]
    exact ih _
  | swap x y l =>
    intro o
    simp only [List.foldl_cons]
    rw [combineOpt_assoc, combineOpt_comm (g y) (g x), ← combineOpt_assoc]
  | trans _ _ ih1 ih2 =>
    intro o
    rw [ih1 o, ih2 o]

theorem table_ext :
    ∀ (m1 m2 : StationMap), tableSorted m1 → tableSorted m2 →
      (∀ key, lookupKey m1 key = lookupKey m2 key) → m1 = m2 := by
  intro m1
  induction m1 with
  | nil =>
    intro m2 _h1 _h2 h
    cases m2 with
    | nil => rfl
    | cons e r2 =>
      obtain ⟨k2, s2⟩ := e
      have := h k2
      simp [lookupKey] at this
  | cons e r1 ih =>
    intro m2 h1 h2 h
    obtain ⟨k1, s1⟩ := e
    cases m2 with
    | nil =>
      have := h k1
      simp [lookupKey] at this
    | cons e2 r2 =>
      obtain ⟨k2, s2⟩ := e2
      have hk : k1 = k2 := by
        by_contra hne
        have ha : lookupKey ((k2, s2) :: r2) k1 = some s1 := by
          rw [← h k1]; simp [lookupKey]
        have hb : lookupKey ((k1, s1) :: r1) k2 = some s2 := by
          rw [h k2]; simp [lookupKey]
        have hm1 : k1 ∈ ((k2, s2) :: r2).map Prod.fst := mem_keys_of_lookup _ _ _ ha
        have hm2 : k2 ∈ ((k1, s1) :: r1).map Prod.fst := mem_keys_of_lookup _ _ _ hb
        simp only [List.map_cons, List.mem_cons] at hm1 hm2
        rcases hm1 with h1' | h1'
        · exact hne h1'
        rcases hm2 with h2' | h2'
        · exact hne h2'.symm
        have l21 : keyLt k2 k1 = true := (List.pairwise_cons.mp h2).1 k1 h1'
        have l12 : keyLt k1 k2 = true := (List.pairwise_cons.mp h1).1 k2 h2'
        have hfalse := keyLt_asymm _ _ l12
        rw [hfalse] at l21
        exact Bool.false_ne_true l21
      subst hk
      have hs : s1 = s2 := by
        have := h k1
        simp [lookupKey] at this
        exact this
      subst hs
      have htl : ∀ key, lookupKey r1 key = lookupKey r2 key := by
        intro key
        by_cases hkey : key = k1
        · subst hkey
          have e1 : lookupKey r1 key = none := by
            apply lookup_eq_none
            intro e he heq
            have hlt := (List.pairwise_cons.mp h1).1 e.1 (List.mem_map_of_mem Prod.fst he)
            rw [← heq, keyLt_irrefl] at hlt
            exact Bool.false_ne_true hlt
          have e2 : lookupKey r2 key = none := by
            apply lookup_eq_none
            intro e he heq
            have hlt := (List.pairwise_cons.mp h2).1 e.1 (List.mem_map_of_mem Prod.fst he)
            rw [← heq, keyLt_irrefl] at hlt
            exact Bool.false_ne_true hlt
          rw [e1, e2]
        · have := h key
          simp only [lookupKey, if_neg hkey] at this
          exact this
      rw [ih r2 (List.pairwise_cons.mp h1).2 (List.pairwise_cons.mp h2).2 htl]

theorem splitLines_cons (x : Nat) (l : List Nat) :
    splitLines (x :: l) =
      if x = 10 then [] :: splitLines l
      else
        match splitLines l with
        | [] => []
        | line :: lines => (x :: line) :: lines := rfl

theorem splitLines_eq_nil (l : List Nat) (h : ∀ x ∈ l, x ≠ 10) : splitLines l = [] := by
  induction l with
  | nil => rfl
  | cons x rest ih =>
    have hx : x ≠ 10 := h x (List.mem_cons_self _ _)
    have hr := ih (fun y hy => h y (List.mem_cons_of_mem _ hy))
    rw [splitLines_cons, if_neg hx, hr]

theorem splitLines_ne_nil (l : List Nat) (h : l.getLast? = some 10) :
    splitLines l ≠ [] := by
  induction l with
  | nil => simp at h
  | cons x rest ih =>
    cases rest with
    | nil =>
      simp only [List.getLast?_singleton, Option.some.injEq] at h
      subst h
      simp [splitLines]
    | cons y rest2 =>
      rw [List.getLast?_cons_cons] at h
      have hne := ih h
      by_cases hx : x = 10
      · simp [splitLines_cons, hx]
      · rw [splitLines_cons, if_neg hx]
        cases hsl : splitLines (y :: rest2) with
        | nil => exact absurd hsl hne
        | cons line lines => simp

theorem splitLines_append_aligned (a b : List Nat) (h : chunkAligned a) :
    splitLines (a ++ b) = splitLines a ++ splitLines b := by
  induction a with
  | nil => rfl
  | cons x a2 ih =>
    have hlast : (x :: a2).getLast? = some 10 := by
      rcases h with h | h
      · exact absurd h (List.cons_ne_nil x a2)
      · exact h
    by_cases hx : x = 10
    · subst hx
      cases a2 with
      | nil => simp [splitLines]
      | cons y a3 =>
        rw [List.getLast?_cons_cons] at hlast
        have hstep := ih (Or.inr hlast)
        rw [List.cons_append, splitLines_cons, if_pos rfl, hstep]
        rfl
    · cases a2 with
      | nil =>
        simp only [List.getLast?_singleton, Option.some.injEq] at hlast
        exact absurd hlast hx
      | cons y a3 =>
        rw [List.getLast?_cons_cons] at hlast
        have hne := splitLines_ne_nil (y :: a3) hlast
        have hstep := ih (Or.inr hlast)
        obtain ⟨line, lines, hsl⟩ : ∃ line lines, splitLines (y :: a3) = line :: lines := by
          cases hq : splitLines (y :: a3) with
          | nil => exact absurd hq hne
          | cons l ls => exact ⟨l, ls, rfl⟩
        rw [List.cons_append, splitLines_cons, if_neg hx, hstep, hsl, splitLines_cons,
          if_neg hx, hsl]
        simp

theorem splitLines_append_no_nl (l t : List Nat) (h : ∀ x ∈ t, x ≠ 10) :
    splitLines (l ++ t) = splitLines l := by
  induction l with
  | nil => exact splitLines_eq_nil t h
  | cons x l2 ih =>
    by_cases hx : x = 10
    · rw [List.cons_append, splitLines_cons, if_pos hx, ih, splitLines_cons, if_pos hx]
    · rw [List.cons_append, splitLines_cons, if_neg hx, ih, splitLines_cons, if_neg hx]

theorem splitLines_join (cs : List (List Nat))
    (h : ∀ c ∈ cs.dropLast, chunkAligned c) :
    splitLines cs.join = (cs.map splitLines).join := by
  induction cs with
  | nil => rfl
  | cons c cs2 ih =>
    cases cs2 with
    | nil => simp
    | cons c2 cs3 =>
      have hc : chunkAligned c := by
        apply h
        simp [List.dropLast_cons_of_ne_nil]
      have hrest : ∀ d ∈ (c2 :: cs3).dropLast, chunkAligned d := by
        intro d hd
        apply h
        rw [List.dropLast_cons_of_ne_nil (List.cons_ne_nil c2 cs3)]
        exact List.mem_cons_of_mem _ hd
      rw [show (c :: c2 :: cs3).join = c ++ (c2 :: cs3).join from rfl,
        splitLines_append_aligned c _ hc, ih hrest]
      simp

theorem readingsOf_append (l1 l2 : List (List Nat)) (key : Key) :
    readingsOf (l1 ++ l2) key = readingsOf l1 key ++ readingsOf l2 key :=
  List.filterMap_append _ _ _

theorem foldl_combineOpt_shift {α : Type} (g : α → Option StationStats) :
    ∀ (l : List α) (o : Option StationStats),
      l.foldl (fun acc x => combineOpt acc (g x)) o =
        combineOpt o (l.foldl (fun acc x => combineOpt acc (g x)) none) := by
  intro l
  induction l with
  | nil =>
    intro o
    rw [List.foldl_nil, List.foldl_nil, combineOpt_none_right]
  | cons x l ih =>
    intro o
    rw [List.foldl_cons, ih (combineOpt o (g x)), List.foldl_cons,
      ih (combineOpt none (g x)), combineOpt_assoc]
    rfl

theorem statsOfReadings_join (lss : List (List (List Nat))) (key : Key) :
    statsOfReadings (readingsOf lss.join key) =
      lss.foldl (fun o ls => combineOpt o (statsOfReadings (readingsOf ls key))) none := by
  induction lss with
  | nil => rfl
  | cons ls lss ih =>
    rw [show (ls :: lss).join = ls ++ lss.join from rfl, readingsOf_append,
      statsOfReadings_append, ih, List.foldl_cons,
      foldl_combineOpt_shift (fun c => statsOfReadings (readingsOf c key)) lss
        (combineOpt none (statsOfReadings (readingsOf ls key)))]
    rfl

theorem aggLines_some_splitSemi :
    ∀ (lines : List (List Nat)) (m0 m : StationMap), aggLines m0 lines = some m →
      ∀ line ∈ lines, (splitSemi line).isSome := by
  intro lines
  induction lines with
  | nil =>
    intro m0 m _ line hmem
    exact absurd hmem (List.not_mem_nil _)
  | cons l rest ih =>
    intro m0 m h line hmem
    simp only [aggLines] at h
    cases hs : splitSemi l with
    | none => rw [hs] at h; exact absurd h (by simp)
    | some p =>
      rw [hs] at h
      rcases List.mem_cons.mp hmem with hl | hl
      · subst hl; simp [hs]
      · exact ih _ m h line hl

theorem aggAll_props :
    ∀ (cs : List (List Nat)) (ts : List StationMap), aggAll cs = some ts →
      (∀ t ∈ ts, tableSorted t) ∧
        (∀ c ∈ cs, ∀ line ∈ splitLines c, (splitSemi line).isSome) ∧
        (∀ key, ts.foldl (fun o t => combineOpt o (lookupKey t key)) none =
          cs.foldl
            (fun o c => combineOpt o (statsOfReadings (readingsOf (splitLines c) key)))
            none) := by
  intro cs
  induction cs with
  | nil =>
    intro ts h
    simp only [aggAll, Option.some.injEq] at h
    subst h
    refine ⟨by simp, by simp, fun key => rfl⟩
  | cons c cs2 ih =>
    intro ts h
    simp only [aggAll] at h
    cases hc : do_aggregate c with
    | none => rw [hc] at h; exact absurd h (by simp)
    | some t =>
      cases hcs : aggAll cs2 with
      | none => rw [hc, hcs] at h; exact absurd h (by simp)
      | some ts2 =>
        rw [hc, hcs] at h
        simp only [Option.some.injEq] at h
        subst h
        obtain ⟨hsorted2, hlines2, hfold2⟩ := ih ts2 hcs
        obtain ⟨hts, htlook⟩ := do_aggregate_sorted_lookup c t hc
        refine ⟨?_, ?_, ?_⟩
        · intro u hu
          rcases List.mem_cons.mp hu with hu | hu
          · subst hu; exact hts
          · exact hsorted2 u hu
        · intro d hd line hline
          rcases List.mem_cons.mp hd with hd | hd
          · subst hd; exact aggLines_some_splitSemi (splitLines d) [] t hc line hline
          · exact hlines2 d hd line hline
        · intro key
          rw [List.foldl_cons, List.foldl_cons,
            foldl_combineOpt_shift (fun u => lookupKey u key) ts2,
            foldl_combineOpt_shift
              (fun d => statsOfReadings (readingsOf (splitLines d) key)) cs2,
            hfold2 key, htlook key]

/-- C1: merging the per-chunk tables of any line-aligned chunking of the
buffer, received in any order, produces exactly the table of aggregating
the whole buffer at once, and therefore the same formatted report. -/
theorem merge_order_independence (cs : List (List Nat)) (ts ts2 : List StationMap)
    (hAl : ∀ c ∈ cs.dropLast, chunkAligned c)
    (hAgg : aggAll cs = some ts) (hPerm : ts2.Perm ts) :
    do_aggregate cs.join = some (mergeAll ts2) ∧
      (do_aggregate cs.join).map format_output = some (format_output (mergeAll ts2)) := by
  obtain ⟨hsorted, hlines, hfold⟩ := aggAll_props cs ts hAgg
  have hlines2 : ∀ line ∈ splitLines cs.join, (splitSemi line).isSome := by
    rw [splitLines_join cs hAl]
    intro line hline
    rw [List.mem_join] at hline
    obtain ⟨ls, hls, hline2⟩ := hline
    rw [List.mem_map] at hls
    obtain ⟨c, hc, rfl⟩ := hls
    exact hlines c hc line hline2
  have hsomem := aggLines_succeeds (splitLines cs.join) hlines2 []
  obtain ⟨m, hm⟩ := Option.isSome_iff_exists.mp hsomem
  have hm2 : do_aggregate cs.join = some m := hm
  obtain ⟨hms, hmlook⟩ := do_aggregate_sorted_lookup cs.join m hm2
  have hts2sorted : ∀ t2 ∈ ts2, tableSorted t2 := fun t2 ht2 =>
    hsorted t2 (hPerm.mem_iff.mp ht2)
  have hmergesorted : tableSorted (mergeAll ts2) :=
    (lookup_mergeAll ts2 [] hts2sorted).1
  have heq : mergeAll ts2 = m := by
    apply table_ext (mergeAll ts2) m hmergesorted hms
    intro key
    rw [(lookup_mergeAll ts2 key hts2sorted).2,
      foldl_combineOpt_perm (fun t2 => lookupKey t2 key) hPerm none,
      hfold key, hmlook key, splitLines_join cs hAl, statsOfReadings_join,
      List.foldl_map]
  rw [hm2, heq]
  exact ⟨rfl, rfl⟩

theorem statsInvStrong_init (r : Int) : statsInvStrong (initStats r) [r] := by
  refine ⟨⟨rfl, by simp [initStats], ?_⟩, by simp [initStats], by simp [initStats]⟩
  intro x hx
  simp only [List.mem_singleton] at hx
  subst hx
  exact ⟨le_refl _, le_refl _⟩

theorem statsInvStrong_update (s : StationStats) (acc : List Int) (r : Int)
    (h : statsInvStrong s acc) : statsInvStrong (updateStats s r) (acc ++ [r]) := by
  obtain ⟨⟨hcount, htotal, hbounds⟩, hminmem, hmaxmem⟩ := h
  have hwf : s.min ≤ s.max := (hbounds s.min hminmem).2
  obtain ⟨mn, mx, tot, cnt⟩ := s
  simp only at hcount htotal hbounds hminmem hmaxmem hwf
  simp only [updateStats]
  split_ifs with h1 h2
  · refine ⟨⟨?_, ?_, ?_⟩, ?_, ?_⟩
    · simp [hcount]
    · simp [htotal]
    · intro x hx
      rcases List.mem_append.mp hx with hx | hx
      · have := hbounds x hx
        simp only
        omega
      · simp only [List.mem_singleton] at hx
        subst hx
        simp only
        omega
    · simp
    · exact List.mem_append_left _ hmaxmem
  · refine ⟨⟨?_, ?_, ?_⟩, ?_, ?_⟩
    · simp [hcount]
    · simp [htotal]
    · intro x hx
      rcases List.mem_append.mp hx with hx | hx
      · have := hbounds x hx
        simp only
        omega
      · simp only [List.mem_singleton] at hx
        subst hx
        simp only
        omega
    · exact List.mem_append_left _ hminmem
    · simp
  · refine ⟨⟨?_, ?_, ?_⟩, ?_, ?_⟩
    · simp [hcount]
    · simp [htotal]
    · intro x hx
      rcases List.mem_append.mp hx with hx | hx
      · have := hbounds x hx
        simp only
        omega
      · simp only [List.mem_singleton] at hx
        subst hx
        simp only
        omega
    · exact List.mem_append_left _ hminmem
    · exact List.mem_append_left _ hmaxmem

theorem statsInvStrong_foldl :
    ∀ (rs : List Int) (s : StationStats) (acc : List Int), statsInvStrong s acc →
      statsInvStrong (rs.foldl updateStats s) (acc ++ rs) := by
  intro rs
  induction rs with
  | nil => intro s acc h; simpa using h
  | cons r rs ih =>
    intro s acc h
    have hstep := statsInvStrong_update s acc r h
    have := ih (updateStats s r) (acc ++ [r]) hstep
    simpa using this

theorem statsInvStrong_of_statsOfReadings (rs : List Int) (s : StationStats)
    (h : statsOfReadings rs = some s) : statsInvStrong s rs := by
  cases rs with
  | nil => simp [statsOfReadings] at h
  | cons r rs =>
    simp only [statsOfReadings, Option.some.injEq] at h
    subst h
    have := statsInvStrong_foldl rs (initStats r) [r] (statsInvStrong_init r)
    simpa using this

theorem statsInv_combine (sA sB : StationStats) (rA rB : List Int)
    (hA : statsInv sA rA) (hB : statsInv sB rB) :
    statsInv (combineStats sA sB) (rA ++ rB) := by
  obtain ⟨hAc, hAt, hAb⟩ := hA
  obtain ⟨hBc, hBt, hBb⟩ := hB
  refine ⟨by simp [combineStats, hAc, hBc], by simp [combineStats, hAt, hBt], ?_⟩
  intro x hx
  rcases List.mem_append.mp hx with hx | hx
  · obtain ⟨h1, h2⟩ := hAb x hx
    exact ⟨le_trans (min_le_left _ _) h1, le_trans h2 (le_max_left _ _)⟩
  · obtain ⟨h1, h2⟩ := hBb x hx
    exact ⟨le_trans (min_le_right _ _) h1, le_trans h2 (le_max_right _ _)⟩

theorem natDigitsAux_irrel :
    ∀ (f1 : Nat), ∀ (f2 n : Nat), n < f1 → n < f2 →
      natDigitsAux f1 n = natDigitsAux f2 n := by
  intro f1
  induction f1 with
  | zero => intro f2 n h1 _; omega
  | succ g1 ih =>
    intro f2 n h1 h2
    cases f2 with
    | zero => omega
    | succ g2 =>
      simp only [natDigitsAux]
      by_cases h : n < 10
      · rw [if_pos h, if_pos h]
      · rw [if_neg h, if_neg h]
        have hq : n / 10 < g1 := by omega
        have hq2 : n / 10 < g2 := by omega
        rw [ih g2 (n / 10) hq hq2]

theorem natDigits_eq (n : Nat) :
    natDigits n = if n < 10 then [48 + n] else natDigits (n / 10) ++ [48 + n % 10] := by
  show natDigitsAux (n + 1) n = _
  simp only [natDigitsAux]
  by_cases h : n < 10
  · rw [if_pos h, if_pos h]
  · rw [if_neg h, if_neg h]
    rw [natDigitsAux_irrel n (n / 10 + 1) (n / 10) (by omega) (by omega)]
    rfl

theorem natDigits_mem (n : Nat) : ∀ c ∈ natDigits n, 48 ≤ c ∧ c ≤ 57 := by
  induction n using Nat.strong_induction_on with
  | _ n ih =>
    intro c hc
    rw [natDigits_eq] at hc
    split_ifs at hc with h
    · simp only [List.mem_singleton] at hc
      omega
    · rcases List.mem_append.mp hc with hc | hc
      · exact ih (n / 10) (Nat.div_lt_self (by omega) (by omega)) c hc
      · simp only [List.mem_singleton] at hc
        have : n % 10 < 10 := Nat.mod_lt n (by omega)
        omega

theorem parse_core_dash (rest : List Nat) (r t : Int) :
    parse_int_core (45 :: rest) r t = parse_int_core rest r (-1) := by
  simp [parse_int_core]

theorem parse_core_dot (rest : List Nat) (r t : Int) :
    parse_int_core (46 :: rest) r t = parse_int_core rest r t := by
  simp [parse_int_core]

theorem parse_core_digit_byte (d : Nat) (hd : d < 10) (rest : List Nat) (r t : Int) :
    parse_int_core ((48 + d) :: rest) r t = parse_int_core rest (r * 10 + (d : Int)) t := by
  simp only [parse_int_core]
  rw [if_neg (by omega), if_neg (by omega), if_pos (by omega)]
  have hsub : (48 + d - 48 : Nat) = d := by omega
  rw [hsub]

theorem parse_core_digits (n : Nat) :
    ∀ (rest : List Nat) (r t : Int),
      parse_int_core (natDigits n ++ rest) r t =
        parse_int_core rest (r * 10 ^ (natDigits n).length + (n : Int)) t := by
  induction n using Nat.strong_induction_on with
  | _ n ih =>
    intro rest r t
    by_cases h : n < 10
    · rw [natDigits_eq, if_pos h, List.singleton_append, parse_core_digit_byte n h]
      norm_num
    · have hlt : n / 10 < n := Nat.div_lt_self (by omega) (by omega)
      have hm : n % 10 < 10 := Nat.mod_lt n (by omega)
      rw [natDigits_eq, if_neg h, List.append_assoc, ih (n / 10) hlt,
        List.singleton_append, parse_core_digit_byte (n % 10) hm]
      have hdm : ((n / 10 : Nat) : Int) * 10 + ((n % 10 : Nat) : Int) = (n : Int) := by
        omega
      have harg : (r * 10 ^ (natDigits (n / 10)).length + ((n / 10 : Nat) : Int)) * 10 +
          ((n % 10 : Nat) : Int) =
          r * 10 ^ ((natDigits (n / 10)).length + 1) + (n : Int) := by
        rw [← hdm, pow_succ]
        ring
      rw [harg, show (natDigits (n / 10) ++ [48 + n % 10]).length =
        (natDigits (n / 10)).length + 1 by simp]

theorem parse_int_renderScaled (k : Int) : parse_int (renderScaled k) = k := by
  have hm : k.natAbs % 10 < 10 := Nat.mod_lt _ (by omega)
  have hdm : ((k.natAbs / 10 : Nat) : Int) * 10 + ((k.natAbs % 10 : Nat) : Int) =
      (k.natAbs : Int) := by omega
  by_cases hk : k < 0
  · have habs : (k.natAbs : Int) = -k := by
      rw [Int.natCast_natAbs, abs_of_neg hk]
    rw [renderScaled, if_pos hk, List.singleton_append, parse_int, List.cons_append,
      parse_core_dash, parse_core_digits,
      show ([46, 48 + k.natAbs % 10] : List Nat) =
        46 :: (48 + k.natAbs % 10) :: [] from rfl, parse_core_dot,
      parse_core_digit_byte _ hm]
    simp only [parse_int_core]
    rw [zero_mul, zero_add]
    rw [hdm, habs]
    ring
  · have habs : (k.natAbs : Int) = k := Int.natAbs_of_nonneg (by omega)
    rw [renderScaled, if_neg hk, List.nil_append, parse_int, parse_core_digits,
      show ([46, 48 + k.natAbs % 10] : List Nat) =
        46 :: (48 + k.natAbs % 10) :: [] from rfl, parse_core_dot,
      parse_core_digit_byte _ hm]
    simp only [parse_int_core]
    rw [zero_mul, zero_add]
    rw [hdm, habs]
    ring

theorem ceilDiv_eq_ceil (total : Int) (count : Nat) (h : 0 < count) :
    ceilDiv total count = Int.ceil ((total : ℚ) / (count : ℚ)) := by
  symm
  rw [Int.ceil_eq_iff]
  have hc0 : (0 : Int) < (count : Int) := by exact_mod_cast h
  have hcq : (0 : ℚ) < (count : ℚ) := by exact_mod_cast h
  have hdm := Int.ediv_add_emod (-total) (count : Int)
  have hr0 : 0 ≤ (-total) % (count : Int) := Int.emod_nonneg _ (by omega)
  have hrlt : (-total) % (count : Int) < (count : Int) :=
    Int.emod_lt_of_pos _ hc0
  have hfd : (-total).fdiv (count : Int) = (-total) / (count : Int) :=
    Int.fdiv_eq_ediv _ (by omega)
  rw [ceilDiv, hfd]
  constructor
  · rw [lt_div_iff₀ hcq]
    have e1 : (-(-total / (count : Int)) - 1) * (count : Int) =
        total + (-total) % (count : Int) - (count : Int) := by
      linear_combination -(Int.ediv_add_emod (-total) (count : Int))
    have hint : (-(-total / (count : Int)) - 1) * (count : Int) < total := by
      rw [e1]; omega
    exact_mod_cast hint
  · rw [div_le_iff₀ hcq]
    have e2 : -(-total / (count : Int)) * (count : Int) =
        total + (-total) % (count : Int) := by
      linear_combination -(Int.ediv_add_emod (-total) (count : Int))
    have hint : total ≤ -(-total / (count : Int)) * (count : Int) := by
      rw [e2]; omega
    exact_mod_cast hint


theorem digitsToNat_shift (ds : List Nat) :
    ∀ a : Nat, ds.foldl (fun acc d => acc * 10 + d) a = a * 10 ^ ds.length + digitsToNat ds := by
  induction ds with
  | nil => intro a; simp [digitsToNat]
  | cons d ds ih =>
    intro a
    rw [List.foldl_cons, ih (a * 10 + d)]
    have h2 : digitsToNat (d :: ds) = d * 10 ^ ds.length + digitsToNat ds := by
      show (d :: ds).foldl (fun acc x => acc * 10 + x) 0 = _
      rw [List.foldl_cons, ih (0 * 10 + d)]
      ring
    rw [List.length_cons, h2]
    ring

theorem digitsToNat_cons (d : Nat) (ds : List Nat) :
    digitsToNat (d :: ds) = d * 10 ^ ds.length + digitsToNat ds := by
  show (d :: ds).foldl (fun acc x => acc * 10 + x) 0 = _
  rw [List.foldl_cons, digitsToNat_shift ds (0 * 10 + d)]
  ring

theorem parse_core_mapped_digits (ds : List Nat) (hds : ∀ d ∈ ds, d < 10) :
    ∀ (rest : List Nat) (r t : Int),
      parse_int_core (ds.map (fun d => 48 + d) ++ rest) r t =
        parse_int_core rest (r * 10 ^ ds.length + (digitsToNat ds : Int)) t := by
  induction ds with
  | nil =>
    intro rest r t
    simp [digitsToNat]
  | cons d ds ih =>
    intro rest r t
    have hd : d < 10 := hds d (List.mem_cons_self _ _)
    rw [List.map_cons, List.cons_append, parse_core_digit_byte d hd,
      ih (fun x hx => hds x (List.mem_cons_of_mem _ hx))]
    have harg : (r * 10 + (d : Int)) * 10 ^ ds.length + (digitsToNat ds : Int) =
        r * 10 ^ (d :: ds).length + (digitsToNat (d :: ds) : Int) := by
      rw [digitsToNat_cons, List.length_cons]
      push_cast
      ring
    rw [harg]

theorem parse_core_stop (c : Nat) (hc : ¬(c = 45 ∨ c = 46 ∨ (48 ≤ c ∧ c ≤ 57)))
    (tail : List Nat) :
    ∀ (pre : List Nat) (r t : Int),
      parse_int_core (pre ++ c :: tail) r t = parse_int_core pre r t := by
  intro pre
  induction pre with
  | nil =>
    intro r t
    push_neg at hc
    simp only [List.nil_append, parse_int_core]
    rw [if_neg hc.1, if_neg hc.2.1, if_neg (by omega)]
  | cons b pre ih =>
    intro r t
    rw [List.cons_append]
    simp only [parse_int_core]
    split_ifs
    · exact ih _ _
    · exact ih _ _
    · exact ih _ _
    · rfl

theorem parse_core_neg_toggle (rest : List Nat) (hnod : 45 ∉ rest) :
    ∀ r : Int, parse_int_core rest r (-1) = -parse_int_core rest r 1 := by
  induction rest with
  | nil =>
    intro r
    show r * (-1) = -(r * 1)
    ring
  | cons b rest ih =>
    intro r
    have hb : b ≠ 45 := fun h => hnod (h ▸ List.mem_cons_self b rest)
    have hrest : 45 ∉ rest := fun h => hnod (List.mem_cons_of_mem _ h)
    simp only [parse_int_core]
    rw [if_neg hb, if_neg hb]
    split_ifs
    · exact ih hrest _
    · exact ih hrest _
    · show r * (-1) = -(r * 1)
      ring

theorem sortEntries_sorted_id : ∀ m : StationMap, tableSorted m → sortEntries m = m := by
  intro m
  induction m with
  | nil => intro _; rfl
  | cons e rest ih =>
    intro hsorted
    have htail := (List.pairwise_cons.mp hsorted).2
    have hstep : sortEntries (e :: rest) = insSortEntry e (sortEntries rest) := rfl
    rw [hstep, ih htail]
    cases rest with
    | nil => rfl
    | cons e2 rest2 =>
      have hlt : keyLt e.1 e2.1 = true := by
        have := (List.pairwise_cons.mp hsorted).1
        exact this e2.1 (by simp)
      simp [insSortEntry, hlt]

theorem firstNl_spec :
    ∀ (l : List Nat) (i : Nat), firstNl l = some i →
      l[i]? = some 10 ∧ ∀ j < i, l[j]? ≠ some 10 := by
  intro l
  induction l with
  | nil => intro i h; simp [firstNl] at h
  | cons b rest ih =>
    intro i h
    by_cases hb : b = 10
    · simp only [firstNl, if_pos hb, Option.some.injEq] at h
      subst h
      subst hb
      exact ⟨List.getElem?_cons_zero, fun j hj => absurd hj (by omega)⟩
    · simp only [firstNl, if_neg hb, Option.map_eq_some'] at h
      obtain ⟨i2, hi2, rfl⟩ := h
      obtain ⟨hget, hmin⟩ := ih i2 hi2
      refine ⟨by rw [List.getElem?_cons_succ]; exact hget, ?_⟩
      intro j hj
      cases j with
      | zero =>
        rw [List.getElem?_cons_zero]
        intro hcon
        simp only [Option.some.injEq] at hcon
        exact hb hcon
      | succ j2 =>
        rw [List.getElem?_cons_succ]
        exact hmin j2 (by omega)

theorem nlBoundary_spec (buf : List Nat) (off b : Nat)
    (h : nlBoundary buf off = some b) :
    off < b ∧ b ≤ buf.length ∧ buf[b - 1]? = some 10 ∧
      ∀ q, off ≤ q → q < b - 1 → buf[q]? ≠ some 10 := by
  simp only [nlBoundary, Option.map_eq_some'] at h
  obtain ⟨i, hi, rfl⟩ := h
  obtain ⟨hget, hmin⟩ := firstNl_spec _ i hi
  rw [List.getElem?_drop] at hget
  have hlen : off + i < buf.length := by
    obtain ⟨hlt, _⟩ := List.getElem?_eq_some.mp hget
    exact hlt
  refine ⟨by omega, by omega, ?_, ?_⟩
  · rw [show off + i + 1 - 1 = off + i by omega]
    exact hget
  · intro q hq1 hq2
    have hj : q - off < i := by omega
    have := hmin (q - off) hj
    rw [List.getElem?_drop, show off + (q - off) = q by omega] at this
    exact this

theorem nlBoundary_mono (buf : List Nat) (o1 o2 b1 b2 : Nat) (ho : o1 ≤ o2)
    (h1 : nlBoundary buf o1 = some b1) (h2 : nlBoundary buf o2 = some b2) :
    b1 ≤ b2 := by
  obtain ⟨ho1, _, _, hmin1⟩ := nlBoundary_spec buf o1 b1 h1
  obtain ⟨ho2, _, hget2, _⟩ := nlBoundary_spec buf o2 b2 h2
  by_contra hcon
  have hq1 : o1 ≤ b2 - 1 := by omega
  have hq2 : b2 - 1 < b1 - 1 := by omega
  exact hmin1 (b2 - 1) hq1 hq2 hget2

theorem midOffsets_spec (buf : List Nat) (cs : Nat) :
    ∀ (t : Nat) (l : List Nat), midOffsets buf cs t = some l →
      l.length = t ∧ List.Chain' (· ≤ ·) l ∧
        (∀ b ∈ l, 1 ≤ b ∧ b ≤ buf.length ∧ buf[b - 1]? = some 10) ∧
        (l = [] ∨ ∃ p, nlBoundary buf (t * cs) = some p ∧ l.getLast? = some p) := by
  intro t
  induction t with
  | zero =>
    intro l h
    simp only [midOffsets, Option.some.injEq] at h
    subst h
    exact ⟨rfl, List.chain'_nil, by simp, Or.inl rfl⟩
  | succ t ih =>
    intro l h
    simp only [midOffsets] at h
    cases h1 : midOffsets buf cs t with
    | none => rw [h1] at h; exact absurd h (by simp)
    | some l0 =>
      cases h2 : nlBoundary buf ((t + 1) * cs) with
      | none => rw [h1, h2] at h; exact absurd h (by simp)
      | some b =>
        rw [h1, h2] at h
        simp only [Option.some.injEq] at h
        subst h
        obtain ⟨hlen, hchain, hmem, hlast⟩ := ih l0 h1
        obtain ⟨hb1, hb2, hb3, _⟩ := nlBoundary_spec buf _ b h2
        refine ⟨by simp [hlen], ?_, ?_, ?_⟩
        · rw [List.chain'_append]
          refine ⟨hchain, List.chain'_singleton b, ?_⟩
          intro x hx y hy
          simp only [List.head?_cons, Option.mem_def, Option.some.injEq] at hy
          subst hy
          rcases hlast with hnil | ⟨p, hp, hplast⟩
          · subst hnil; simp at hx
          · rw [hplast] at hx
            simp only [Option.mem_def, Option.some.injEq] at hx
            rw [hx] at hp
            exact nlBoundary_mono buf (t * cs) ((t + 1) * cs) x b
              (Nat.mul_le_mul_right cs (by omega)) hp h2
        · intro b2 hb2mem
          rcases List.mem_append.mp hb2mem with hb2mem | hb2mem
          · exact hmem b2 hb2mem
          · simp only [List.mem_singleton] at hb2mem
            subst hb2mem
            exact ⟨by omega, hb2, hb3⟩
        · right
          exact ⟨b, rfl, List.getLast?_concat l0⟩

theorem chain_head_le_getLast :
    ∀ (l : List Nat) (a L : Nat), List.Chain' (· ≤ ·) (a :: l) →
      (a :: l).getLast? = some L → a ≤ L := by
  intro l
  induction l with
  | nil =>
    intro a L _ hlast
    simp only [List.getLast?_singleton, Option.some.injEq] at hlast
    omega
  | cons b l ih =>
    intro a L hchain hlast
    have hab : a ≤ b := (List.chain'_cons.mp hchain).1
    have hchain2 := (List.chain'_cons.mp hchain).2
    rw [List.getLast?_cons_cons] at hlast
    exact le_trans hab (ih b L hchain2 hlast)

theorem chunks_join (buf : List Nat) :
    ∀ (offs : List Nat) (a L : Nat), List.Chain' (· ≤ ·) (a :: offs) →
      (a :: offs).getLast? = some L →
      (chunksFromOffsets buf (a :: offs)).join = (buf.drop a).take (L - a) := by
  intro offs
  induction offs with
  | nil =>
    intro a L _ hlast
    simp only [List.getLast?_singleton, Option.some.injEq] at hlast
    subst hlast
    simp [chunksFromOffsets]
  | cons b offs ih =>
    intro a L hchain hlast
    have hab : a ≤ b := (List.chain'_cons.mp hchain).1
    have hchain2 := (List.chain'_cons.mp hchain).2
    have hlast2 : (b :: offs).getLast? = some L := by
      rwa [List.getLast?_cons_cons] at hlast
    have hbL : b ≤ L := chain_head_le_getLast offs b L hchain2 hlast2
    have hstep : chunksFromOffsets buf (a :: b :: offs) =
        (buf.drop a).take (b - a) :: chunksFromOffsets buf (b :: offs) := rfl
    rw [hstep, List.join, ← List.join, show ((buf.drop a).take (b - a) ::
      chunksFromOffsets buf (b :: offs)).join = (buf.drop a).take (b - a) ++
      (chunksFromOffsets buf (b :: offs)).join from rfl, ih b L hchain2 hlast2]
    have hdd : buf.drop b = (buf.drop a).drop (b - a) := by
      rw [List.drop_drop]
      congr 1
      omega
    rw [hdd, ← List.take_add]
    congr 1
    omega

theorem splitSemi_eq_none (line : List Nat) (h : ∀ b ∈ line, b ≠ 59) :
    splitSemi line = none := by
  induction line with
  | nil => rfl
  | cons b rest ih =>
    have hb : b ≠ 59 := h b (List.mem_cons_self _ _)
    simp only [splitSemi, if_neg hb]
    rw [ih (fun x hx => h x (List.mem_cons_of_mem _ hx))]

/-- C2: the rendered mean is the exact ceiling of total/count — a
round-toward-positive-infinity policy, not round-half-up or round-half-even
(which the general ceiling law excludes); total=23, count=2 renders as 1.2;
every statistic is rendered with exactly one fractional digit (a single
digit after the only '.'), and the rendering of a scaled value is exact:
the program's own parser recovers the scaled integer from it. -/
theorem mean_ceiling_policy :
    (∀ s : StationStats, 0 < s.count →
        meanScaled s = Int.ceil ((s.total : ℚ) / (s.count : ℚ))) ∧
    (∀ s : StationStats, s.total = 23 → s.count = 2 →
        renderScaled (meanScaled s) = [49, 46, 50]) ∧
    (∀ scaled : Int, ∃ pre d, renderScaled scaled = pre ++ [46, 48 + d] ∧ d < 10 ∧
        ∀ c ∈ pre, c ≠ 46) ∧
    (∀ scaled : Int, parse_int (renderScaled scaled) = scaled) := by
  refine ⟨?_, ?_, ?_, ?_⟩
  · intro s h
    exact ceilDiv_eq_ceil s.total s.count h
  · intro s h1 h2
    show renderScaled (ceilDiv s.total s.count) = _
    rw [h1, h2]
    decide
  · intro k
    refine ⟨(if k < 0 then [45] else []) ++ natDigits (k.natAbs / 10), k.natAbs % 10,
      rfl, Nat.mod_lt _ (by omega), ?_⟩
    intro c hc
    rcases List.mem_append.mp hc with hc | hc
    · by_cases hk : k < 0
      · rw [if_pos hk] at hc
        simp only [List.mem_singleton] at hc
        omega
      · rw [if_neg hk] at hc
        simp at hc
    · have := natDigits_mem _ c hc
      omega
  · exact parse_int_renderScaled

theorem mean_ceiling_policy_witness :
    meanScaled ⟨11, 12, 23, 2⟩ =
      Int.ceil ((((⟨11, 12, 23, 2⟩ : StationStats).total : Int) : ℚ) /
        (((⟨11, 12, 23, 2⟩ : StationStats).count : Nat) : ℚ)) ∧
      renderScaled (meanScaled ⟨11, 12, 23, 2⟩) = [49, 46, 50] :=
  ⟨mean_ceiling_policy.1 ⟨11, 12, 23, 2⟩ (by decide),
   mean_ceiling_policy.2.1 ⟨11, 12, 23, 2⟩ rfl rfl⟩

/-- C3: for any key of the table produced by the partial aggregator, min
and max bound every reading observed for that key, count is the number of
such records, and total is their exact sum; and the pairwise merge combine
rule preserves these invariants for the concatenated observations. -/
theorem accumulator_invariants :
    (∀ (buf : List Nat) (m : StationMap) (key : Key) (s : StationStats),
        do_aggregate buf = some m → lookupKey m key = some s →
        statsInv s (readingsOf (splitLines buf) key)) ∧
    (∀ (sA sB : StationStats) (rA rB : List Int),
        statsInv sA rA → statsInv sB rB →
        statsInv (combineStats sA sB) (rA ++ rB)) := by
  constructor
  · intro buf m key s hagg hlook
    have h := (do_aggregate_sorted_lookup buf m hagg).2 key
    rw [hlook] at h
    exact (statsInvStrong_of_statsOfReadings _ s h.symm).1
  · exact statsInv_combine

theorem accumulator_invariants_witness :
    statsInv ⟨1, 2, 3, 2⟩ (readingsOf (splitLines [97, 59, 49, 10, 97, 59, 50, 10]) [97]) :=
  accumulator_invariants.1 [97, 59, 49, 10, 97, 59, 50, 10] [([97], ⟨1, 2, 3, 2⟩)]
    [97] ⟨1, 2, 3, 2⟩ (by decide) (by decide)

/-- C5: the merge combine rule is commutative and associative on per-key
statistics; merging tables combines per-key stats pointwise, and a key
present in only one of the two tables is carried over unchanged. -/
theorem merge_combine_algebra :
    (∀ a b : StationStats, combineStats a b = combineStats b a) ∧
    (∀ a b c : StationStats,
        combineStats (combineStats a b) c = combineStats a (combineStats b c)) ∧
    (∀ (A B : StationMap) (key : Key), tableSorted A → nodupKeys B →
        lookupKey (mergeTables A B) key = combineOpt (lookupKey A key) (lookupKey B key)) ∧
    (∀ (A B : StationMap) (key : Key) (s : StationStats), tableSorted A → nodupKeys B →
        lookupKey A key = some s → lookupKey B key = none →
        lookupKey (mergeTables A B) key = some s) ∧
    (∀ (A B : StationMap) (key : Key) (s : StationStats), tableSorted A → nodupKeys B →
        lookupKey A key = none → lookupKey B key = some s →
        lookupKey (mergeTables A B) key = some s) := by
  refine ⟨combineStats_comm, combineStats_assoc,
    fun A B key hA hB => lookup_mergeTables B A key hA hB, ?_, ?_⟩
  · intro A B key s hA hB h1 h2
    rw [lookup_mergeTables B A key hA hB, h1, h2]
    rfl
  · intro A B key s hA hB h1 h2
    rw [lookup_mergeTables B A key hA hB, h1, h2]
    rfl

theorem merge_combine_algebra_witness :
    combineStats ⟨1, 2, 3, 2⟩ ⟨0, 5, 9, 3⟩ = combineStats ⟨0, 5, 9, 3⟩ ⟨1, 2, 3, 2⟩ ∧
      lookupKey (mergeTables [([97], ⟨1, 1, 1, 1⟩)] [([98], ⟨2, 2, 2, 1⟩)]) [97] =
        some ⟨1, 1, 1, 1⟩ :=
  ⟨merge_combine_algebra.1 _ _,
   merge_combine_algebra.2.2.2.1 [([97], ⟨1, 1, 1, 1⟩)] [([98], ⟨2, 2, 2, 1⟩)] [97]
     ⟨1, 1, 1, 1⟩ (by decide) (by decide) (by decide) (by decide)⟩

/-- C6: the chunk planner yields numThreads contiguous, non-overlapping
ranges (offsets 0 through the buffer length, in non-decreasing order) whose
concatenation is the whole buffer, every internal boundary lying
immediately after a line-terminator byte. -/
theorem chunk_planner_partition (buf : List Nat) (numThreads : Nat) (offs : List Nat)
    (hn : 1 ≤ numThreads) (h : chunkOffsets buf numThreads = some offs) :
    offs.length = numThreads + 1 ∧ offs.head? = some 0 ∧
      offs.getLast? = some buf.length ∧ List.Chain' (· ≤ ·) offs ∧
      (∀ b ∈ (offs.drop 1).dropLast, 1 ≤ b ∧ b ≤ buf.length ∧ buf[b - 1]? = some 10) ∧
      (chunksFromOffsets buf offs).join = buf ∧
      (chunksFromOffsets buf offs).length = numThreads := by
  simp only [chunkOffsets, Option.map_eq_some'] at h
  obtain ⟨mids, hmids, rfl⟩ := h
  obtain ⟨hlen, hchain, hmem, _⟩ := midOffsets_spec buf _ _ mids hmids
  rw [List.cons_append]
  have hchainfull : List.Chain' (· ≤ ·) (0 :: (mids ++ [buf.length])) := by
    rw [List.chain'_cons']
    constructor
    · intro y hy
      omega
    · rw [List.chain'_append]
      refine ⟨hchain, List.chain'_singleton _, ?_⟩
      intro x hx y hy
      simp only [List.head?_cons, Option.mem_def, Option.some.injEq] at hy
      subst hy
      have hxmem : x ∈ mids := List.mem_of_mem_getLast? hx
      exact (hmem x hxmem).2.1
  have hlast : (0 :: (mids ++ [buf.length])).getLast? = some buf.length := by
    rw [← List.cons_append]
    exact List.getLast?_concat _
  refine ⟨by simp [hlen]; omega, rfl, hlast, hchainfull, ?_, ?_, ?_⟩
  · intro b hb
    rw [List.drop_one, List.tail_cons, List.dropLast_concat] at hb
    exact hmem b hb
  · rw [chunks_join buf (mids ++ [buf.length]) 0 buf.length hchainfull hlast]
    simp
  · have h1 : (0 :: (mids ++ [buf.length])).length = numThreads + 1 := by
      simp [hlen]
      omega
    have h2 : (0 :: (mids ++ [buf.length])).tail.length = numThreads := by
      simp [hlen]
      omega
    simp only [chunksFromOffsets, List.length_map, List.length_zip, h1, h2]
    omega

theorem chunk_planner_partition_witness :
    (chunksFromOffsets [97, 59, 49, 46, 48, 10, 98, 59, 50, 46, 48, 10]
        [0, 12, 12]).join = [97, 59, 49, 46, 48, 10, 98, 59, 50, 46, 48, 10] ∧
      (chunksFromOffsets [97, 59, 49, 46, 48, 10, 98, 59, 50, 46, 48, 10]
        [0, 12, 12]).length = 2 :=
  ⟨(chunk_planner_partition [97, 59, 49, 46, 48, 10, 98, 59, 50, 46, 48, 10] 2
      [0, 12, 12] (by decide) (by decide)).2.2.2.2.2.1,
   (chunk_planner_partition [97, 59, 49, 46, 48, 10, 98, 59, 50, 46, 48, 10] 2
      [0, 12, 12] (by decide) (by decide)).2.2.2.2.2.2⟩

/-- C7: the report is the single line '{' ++ entries ++ '}' ++ newline in
which the final (merged) table's keys each appear exactly once, in strictly
ascending byte-wise lexicographic order. -/
theorem formatter_sorted_output (cs : List (List Nat)) (ts : List StationMap)
    (hAgg : aggAll cs = some ts) :
    format_output (mergeAll ts) = 123 :: entriesBytes (mergeAll ts) ++ [125, 10] ∧
      ((mergeAll ts).map Prod.fst).Pairwise (fun a b => keyLt a b = true) := by
  have hsorted := (aggAll_props cs ts hAgg).1
  have hm : tableSorted (mergeAll ts) := (lookup_mergeAll ts [] hsorted).1
  exact ⟨by rw [format_output, sortEntries_sorted_id _ hm], hm⟩

theorem formatter_sorted_output_witness :
    format_output (mergeAll [[([65], ⟨10, 10, 10, 1⟩), ([66], ⟨10, 10, 10, 1⟩),
        ([97], ⟨10, 10, 10, 1⟩), ([98], ⟨10, 10, 10, 1⟩)]]) =
      123 :: entriesBytes (mergeAll [[([65], ⟨10, 10, 10, 1⟩), ([66], ⟨10, 10, 10, 1⟩),
        ([97], ⟨10, 10, 10, 1⟩), ([98], ⟨10, 10, 10, 1⟩)]]) ++ [125, 10] ∧
      ((mergeAll [[([65], ⟨10, 10, 10, 1⟩), ([66], ⟨10, 10, 10, 1⟩),
        ([97], ⟨10, 10, 10, 1⟩), ([98], ⟨10, 10, 10, 1⟩)]]).map Prod.fst).Pairwise
        (fun a b => keyLt a b = true) :=
  formatter_sorted_output
    [[98, 59, 49, 46, 48, 10, 97, 59, 49, 46, 48, 10,
      66, 59, 49, 46, 48, 10, 65, 59, 49, 46, 48, 10]]
    [[([65], ⟨10, 10, 10, 1⟩), ([66], ⟨10, 10, 10, 1⟩),
      ([97], ⟨10, 10, 10, 1⟩), ([98], ⟨10, 10, 10, 1⟩)]]
    (by decide)

/-- C8: a record without a field separator aborts the whole aggregation
(the table is never produced, hence no report), rather than being skipped. -/
theorem malformed_record_fatal (buf line : List Nat)
    (hmem : line ∈ splitLines buf) (hnosemi : ∀ b ∈ line, b ≠ 59) :
    do_aggregate buf = none ∧ (do_aggregate buf).map format_output = none := by
  have hsplit : splitSemi line = none := splitSemi_eq_none line hnosemi
  have h : do_aggregate buf = none := aggLines_fails (splitLines buf) line hmem hsplit []
  exact ⟨h, by rw [h]; rfl⟩

theorem malformed_record_fatal_witness :
    do_aggregate [97, 98, 10, 99, 59, 49, 10] = none :=
  (malformed_record_fatal [97, 98, 10, 99, 59, 49, 10] [97, 98]
    (by decide) (by decide)).1

/-- C9: a key observed in exactly one record has min = total = max and
count 1, so its three rendered statistics are identical byte strings. -/
theorem single_record_key (buf : List Nat) (m : StationMap) (key : Key) (r : Int)
    (hagg : do_aggregate buf = some m)
    (hobs : readingsOf (splitLines buf) key = [r]) :
    ∃ s, lookupKey m key = some s ∧
      renderScaled s.min = renderScaled (meanScaled s) ∧
      renderScaled s.max = renderScaled (meanScaled s) := by
  have hlook := (do_aggregate_sorted_lookup buf m hagg).2 key
  rw [hobs] at hlook
  have hr : statsOfReadings [r] = some (initStats r) := rfl
  rw [hr] at hlook
  have hms : meanScaled (initStats r) = r := by
    show ceilDiv r 1 = r
    rw [ceilDiv, Int.fdiv_eq_ediv _ (by omega), Nat.cast_one, Int.ediv_one, neg_neg]
  refine ⟨initStats r, hlook, ?_, ?_⟩
  · rw [hms]
    rfl
  · rw [hms]
    rfl

theorem single_record_key_witness :
    ∃ s, lookupKey [([97], ⟨123, 123, 123, 1⟩)] [97] = some s ∧
      renderScaled s.min = renderScaled (meanScaled s) ∧
      renderScaled s.max = renderScaled (meanScaled s) :=
  single_record_key [97, 59, 49, 50, 46, 51, 10] [([97], ⟨123, 123, 123, 1⟩)]
    [97] 123 (by decide) (by decide)

/-- C10: bytes after the last line terminator are never aggregated: an
unterminated trailing record contributes nothing, and a buffer with no
terminator at all (the empty buffer included) yields the empty table. -/
theorem unterminated_tail_ignored :
    (∀ buf tail2 : List Nat, (∀ b ∈ tail2, b ≠ 10) →
        do_aggregate (buf ++ tail2) = do_aggregate buf) ∧
    (∀ buf : List Nat, (∀ b ∈ buf, b ≠ 10) → do_aggregate buf = some []) := by
  constructor
  · intro buf tail2 h
    show aggLines [] (splitLines (buf ++ tail2)) = aggLines [] (splitLines buf)
    rw [splitLines_append_no_nl buf tail2 h]
  · intro buf h
    show aggLines [] (splitLines buf) = some []
    rw [splitLines_eq_nil buf h]
    rfl

theorem unterminated_tail_ignored_witness :
    do_aggregate ([97, 59, 49, 10] ++ [98, 59, 50]) = do_aggregate [97, 59, 49, 10] ∧
      do_aggregate [98, 59, 50] = some [] :=
  ⟨unterminated_tail_ignored.1 [97, 59, 49, 10] [98, 59, 50] (by decide),
   unterminated_tail_ignored.2 [98, 59, 50] (by decide)⟩

theorem merge_order_independence_witness :
    do_aggregate ([[97, 59, 49, 10], [98, 59, 50, 10, 97, 59, 51, 10]] :
        List (List Nat)).join =
      some (mergeAll [[([97], ⟨3, 3, 3, 1⟩), ([98], ⟨2, 2, 2, 1⟩)],
        [([97], ⟨1, 1, 1, 1⟩)]]) :=
  (merge_order_independence [[97, 59, 49, 10], [98, 59, 50, 10, 97, 59, 51, 10]]
    [[([97], ⟨1, 1, 1, 1⟩)], [([97], ⟨3, 3, 3, 1⟩), ([98], ⟨2, 2, 2, 1⟩)]]
    [[([97], ⟨3, 3, 3, 1⟩), ([98], ⟨2, 2, 2, 1⟩)], [([97], ⟨1, 1, 1, 1⟩)]]
    (by decide) (by decide) (by decide)).1

theorem wrap32_eq_self (x : Int) (h1 : -2147483648 ≤ x) (h2 : x < 2147483648) :
    wrap32 x = x := by
  unfold wrap32
  omega

theorem wrap32_neg (x : Int) : wrap32 (-(wrap32 x)) = wrap32 (-x) := by
  unfold wrap32
  omega

theorem parse_core_i32_dash (rest : List Nat) (r t : Int) :
    parse_int_core_i32 (45 :: rest) r t = parse_int_core_i32 rest r (-1) := by
  simp [parse_int_core_i32]

theorem parse_core_i32_dot (rest : List Nat) (r t : Int) :
    parse_int_core_i32 (46 :: rest) r t = parse_int_core_i32 rest r t := by
  simp [parse_int_core_i32]

theorem parse_core_i32_digit_byte (d : Nat) (hd : d < 10) (rest : List Nat) (r t : Int) :
    parse_int_core_i32 ((48 + d) :: rest) r t =
      parse_int_core_i32 rest (wrap32 (r * 10 + (d : Int))) t := by
  simp only [parse_int_core_i32]
  rw [if_neg (by omega), if_neg (by omega), if_pos (by omega)]
  have hsub : (48 + d - 48 : Nat) = d := by omega
  rw [hsub]

theorem parse_core_i32_mapped_digits (ds : List Nat) :
    ∀ (rest : List Nat) (r t : Int), (∀ d ∈ ds, d < 10) → 0 ≤ r →
      r * 10 ^ ds.length + (digitsToNat ds : Int) < 2147483648 →
      parse_int_core_i32 (ds.map (fun d => 48 + d) ++ rest) r t =
        parse_int_core_i32 rest (r * 10 ^ ds.length + (digitsToNat ds : Int)) t := by
  induction ds with
  | nil =>
    intro rest r t _ _ _
    simp [digitsToNat]
  | cons d ds ih =>
    intro rest r t hds hr hbound
    have hd : d < 10 := hds d (List.mem_cons_self _ _)
    have hval : (r * 10 + (d : Int)) * 10 ^ ds.length + (digitsToNat ds : Int) =
        r * 10 ^ (d :: ds).length + (digitsToNat (d :: ds) : Int) := by
      rw [digitsToNat_cons, List.length_cons]
      push_cast
      ring
    have hbound2 : (r * 10 + (d : Int)) * 10 ^ ds.length + (digitsToNat ds : Int) <
        2147483648 := by
      rw [hval]
      exact hbound
    have hstep_nonneg : 0 ≤ r * 10 + (d : Int) := by omega
    have hpow : (1 : Int) ≤ 10 ^ ds.length := one_le_pow₀ (by norm_num)
    have hmulself : r * 10 + (d : Int) ≤ (r * 10 + (d : Int)) * 10 ^ ds.length :=
      le_mul_of_one_le_right hstep_nonneg hpow
    have hVnn : (0 : Int) ≤ (digitsToNat ds : Int) := Int.natCast_nonneg _
    have hstep_lt : r * 10 + (d : Int) < 2147483648 := by linarith
    rw [List.map_cons, List.cons_append, parse_core_i32_digit_byte d hd,
      wrap32_eq_self _ (by omega) hstep_lt,
      ih rest _ t (fun x hx => hds x (List.mem_cons_of_mem _ hx)) hstep_nonneg hbound2,
      hval]

theorem parse_core_i32_stop (c : Nat) (hc : ¬(c = 45 ∨ c = 46 ∨ (48 ≤ c ∧ c ≤ 57)))
    (tail2 : List Nat) :
    ∀ (pre : List Nat) (r t : Int),
      parse_int_core_i32 (pre ++ c :: tail2) r t = parse_int_core_i32 pre r t := by
  intro pre
  induction pre with
  | nil =>
    intro r t
    push_neg at hc
    simp only [List.nil_append, parse_int_core_i32]
    rw [if_neg hc.1, if_neg hc.2.1, if_neg (by omega)]
  | cons b pre ih =>
    intro r t
    rw [List.cons_append]
    simp only [parse_int_core_i32]
    split_ifs
    · exact ih _ _
    · exact ih _ _
    · exact ih _ _
    · rfl

theorem parse_core_i32_neg_toggle (rest : List Nat) (hnod : 45 ∉ rest) :
    ∀ r : Int, parse_int_core_i32 rest r (-1) = wrap32 (-parse_int_core_i32 rest r 1) := by
  induction rest with
  | nil =>
    intro r
    show wrap32 (r * (-1)) = wrap32 (-(wrap32 (r * 1)))
    rw [mul_one, wrap32_neg, mul_neg_one]
  | cons b rest ih =>
    intro r
    have hb : b ≠ 45 := fun h => hnod (h ▸ List.mem_cons_self b rest)
    have hrest : 45 ∉ rest := fun h => hnod (List.mem_cons_of_mem _ h)
    simp only [parse_int_core_i32]
    rw [if_neg hb, if_neg hb]
    split_ifs
    · exact ih hrest _
    · exact ih hrest _
    · show wrap32 (r * (-1)) = wrap32 (-(wrap32 (r * 1)))
      rw [mul_one, wrap32_neg, mul_neg_one]

/-- C4 (amended): with the source's i32 accumulator modelled faithfully
(every arithmetic step wraps at 32 bits, the release-build behavior), a
well-formed reading field whose scaled magnitude fits in i32 parses to
exactly the field's scaled value ("12.3" gives 123, "-0.4" gives -4, "5"
gives 5); parsing stops at the first byte that is not a digit, '-' or '.',
so trailing non-numeric bytes never change the result; and a leading '-'
negates the final result, up to the i32 wrap at -2^31. -/
theorem parser_spec_i32 :
    (∀ (neg : Bool) (ds : List Nat) (frac : Option Nat),
        (∀ d ∈ ds, d < 10) → (∀ d ∈ frac, d < 10) →
        readingMag ds frac < 2147483648 →
        parse_int_i32 (readingBytes neg ds frac) = readingValue neg ds frac) ∧
    (∀ (pre tail2 : List Nat) (c : Nat),
        ¬(c = 45 ∨ c = 46 ∨ (48 ≤ c ∧ c ≤ 57)) →
        parse_int_i32 (pre ++ c :: tail2) = parse_int_i32 pre) ∧
    (∀ rest : List Nat, 45 ∉ rest →
        parse_int_i32 (45 :: rest) = wrap32 (-parse_int_i32 rest)) := by
  refine ⟨?_, ?_, ?_⟩
  · intro neg ds frac hds hfrac hmag
    cases neg with
    | false =>
      cases frac with
      | none =>
        have hV : (digitsToNat ds : Int) < 2147483648 := by
          have : digitsToNat ds < 2147483648 := hmag
          exact_mod_cast this
        show parse_int_i32 ((([] : List Nat) ++ ds.map (fun d => 48 + d)) ++ []) = _
        rw [List.nil_append, List.append_nil, parse_int_i32]
        have h := parse_core_i32_mapped_digits ds [] 0 1 hds (le_refl 0)
          (by rw [zero_mul, zero_add]; exact hV)
        rw [List.append_nil] at h
        rw [h]
        show wrap32 ((0 * 10 ^ ds.length + (digitsToNat ds : Int)) * 1) = _
        rw [zero_mul, zero_add, mul_one,
          wrap32_eq_self _ (by omega) hV]
        simp [readingValue]
      | some d =>
        have hd : d < 10 := hfrac d (by simp)
        have hX : (digitsToNat ds : Int) * 10 + (d : Int) < 2147483648 := by
          have : digitsToNat ds * 10 + d < 2147483648 := hmag
          exact_mod_cast this
        have hV : (digitsToNat ds : Int) < 2147483648 := by omega
        show parse_int_i32 ((([] : List Nat) ++ ds.map (fun d => 48 + d)) ++ [46, 48 + d]) = _
        rw [List.nil_append, parse_int_i32,
          parse_core_i32_mapped_digits ds _ 0 1 hds (le_refl 0)
            (by rw [zero_mul, zero_add]; exact hV),
          show ([46, 48 + d] : List Nat) = 46 :: (48 + d) :: [] from rfl,
          parse_core_i32_dot, parse_core_i32_digit_byte d hd, zero_mul, zero_add,
          wrap32_eq_self _ (by omega) hX]
        show wrap32 (((digitsToNat ds : Int) * 10 + (d : Int)) * 1) = _
        rw [mul_one, wrap32_eq_self _ (by omega) hX]
        simp [readingValue]
    | true =>
      cases frac with
      | none =>
        have hV : (digitsToNat ds : Int) < 2147483648 := by
          have : digitsToNat ds < 2147483648 := hmag
          exact_mod_cast this
        show parse_int_i32 ((([45] : List Nat) ++ ds.map (fun d => 48 + d)) ++ []) = _
        rw [List.append_nil, List.singleton_append, parse_int_i32, parse_core_i32_dash,
          ← List.append_nil (ds.map (fun d => 48 + d)),
          parse_core_i32_mapped_digits ds [] 0 (-1) hds (le_refl 0)
            (by rw [zero_mul, zero_add]; exact hV)]
        show wrap32 ((0 * 10 ^ ds.length + (digitsToNat ds : Int)) * (-1)) = _
        rw [zero_mul, zero_add, mul_neg_one,
          wrap32_eq_self _ (by omega) (by omega)]
        simp [readingValue]
      | some d =>
        have hd : d < 10 := hfrac d (by simp)
        have hX : (digitsToNat ds : Int) * 10 + (d : Int) < 2147483648 := by
          have : digitsToNat ds * 10 + d < 2147483648 := hmag
          exact_mod_cast this
        have hV : (digitsToNat ds : Int) < 2147483648 := by omega
        show parse_int_i32 ((([45] : List Nat) ++ ds.map (fun d => 48 + d)) ++ [46, 48 + d]) = _
        rw [List.singleton_append, List.cons_append, parse_int_i32, parse_core_i32_dash,
          parse_core_i32_mapped_digits ds _ 0 (-1) hds (le_refl 0)
            (by rw [zero_mul, zero_add]; exact hV),
          show ([46, 48 + d] : List Nat) = 46 :: (48 + d) :: [] from rfl,
          parse_core_i32_dot, parse_core_i32_digit_byte d hd, zero_mul, zero_add,
          wrap32_eq_self _ (by omega) hX]
        show wrap32 (((digitsToNat ds : Int) * 10 + (d : Int)) * (-1)) = _
        rw [mul_neg_one, wrap32_eq_self _ (by omega) (by omega)]
        simp [readingValue]
  · intro pre tail2 c hc
    rw [parse_int_i32, parse_core_i32_stop c hc tail2 pre]
    rfl
  · intro rest h
    rw [parse_int_i32, parse_core_i32_dash, parse_core_i32_neg_toggle rest h]
    rfl

theorem parser_spec_i32_counterexample :
    parse_int_i32 (readingBytes false [9, 9, 9, 9, 9, 9, 9, 9, 9, 9] none) = 1410065407 ∧
      readingValue false [9, 9, 9, 9, 9, 9, 9, 9, 9, 9] none = 9999999999 ∧
      parse_int_i32 (readingBytes false [9, 9, 9, 9, 9, 9, 9, 9, 9, 9] none) ≠
        readingValue false [9, 9, 9, 9, 9, 9, 9, 9, 9, 9] none := by
  refine ⟨by decide, by decide, by decide⟩

theorem parser_spec_i32_witness :
    parse_int_i32 (readingBytes false [1, 2] (some 3)) =
      readingValue false [1, 2] (some 3) ∧
      parse_int_i32 ([49] ++ 120 :: [121]) = parse_int_i32 [49] ∧
      parse_int_i32 (45 :: [48, 46, 52]) = wrap32 (-parse_int_i32 [48, 46, 52]) :=
  ⟨parser_spec_i32.1 false [1, 2] (some 3) (by decide) (by decide) (by decide),
   parser_spec_i32.2.1 [49] [121] 120 (by decide),
   parser_spec_i32.2.2 [48, 46, 52] (by decide)⟩
